import Mathlib

/-!
# Serial line I/O of `UART.c`

A shallow embedding of the polled UART routines of `src/src/UART.c`
(`putU1`, `getU1`, `putsU1`, `getsU1`, `putU2`, `getU2`) and the properties
proved about them.

Conventions of the embedding.

* A byte is a `Nat`; `char` and `unsigned char` results are reduced `% 256`.
* A hardware status flag is a sequence of poll readings `Nat → Bool`:
  the value at `k` is what the `k`-th read of the flag returns.
* The busy counters are `unsigned long` (32 bit) and `unsigned int` (16 bit)
  in the source.  They start at 0 and stop at `budget + 1` at the latest
  (3333334, 60000000 and 20000), far below the wrap point, so they are plain
  `Nat` here.
* `len` of `getsU1` is a C `int`; it is an `Int` here.  It moves by one per
  pass of the loop, and for a capacity of 2 or more it stays between 1 and
  the capacity (`InBounds`, `getsU1_in_bounds`), so no wrap is involved.
* `*s == BACKSPACE` and the other comparisons of `*s` with a character code
  are equalities of bytes.
* `BACKSPACE` comes from `UART.h`, which is not part of the sources; it is a
  parameter of `getsU1`.  Where a property needs it to differ from one of the
  bytes the loop names by value (line feed, carriage return, 0x18), the
  theorem says so in a hypothesis.
* `getsU1` reads through `getU1`.  The receiver is given as the list of what
  it shows during the successive `getU1` calls; after the last entry the link
  is silent, so every further `getU1` call times out.
* The string of `putsU1` is the list of the bytes in memory from `s` on; the
  byte after the last one listed is the terminating null, and a null byte
  inside the list ends the string there.
* The wait loop of `putU2` has no bound.  It is followed for a number `fuel`
  of polls; "returns" means a result for every large enough `fuel`, "never
  returns" means no result for any `fuel`.

Layout: the definitions of the primitives and of the loop body; the wait
loops, whose results the termination of the line reader's loop needs; the
loop of `getsU1`, `getsU1` itself and the trace of its reads; the lemmas; then
the properties, claim by claim.
-/

namespace UART

/-! ## Channel 1, transmit side -/

/-- Channel-1 transmitter as the program sees it: `UTXBF k` is the reading of
`U1STAbits.UTXBF` at the `k`-th poll, `polls` counts the polls made so far and
`TXREG` lists the values written to `U1TXREG`, oldest first. -/
structure TxPort where
  UTXBF : Nat → Bool
  polls : Nat
  TXREG : List Nat

/-- `unsigned long maxWaitCounts = 3333333;` of `putU1`. -/
def maxWaitCounts : Nat := 3333333

/-- The wait loop of `putU1`:
`while (U1STAbits.UTXBF) { timeoutCounter++; if (timeoutCounter > maxWaitCounts) return 0x18; }`.
The Boolean is `true` when the loop leaves through the `return 0x18`. -/
def putU1Wait (hw : TxPort) (timeoutCounter : Nat) : Bool × TxPort :=
  if hw.UTXBF hw.polls then
    let hw1 : TxPort := { hw with polls := hw.polls + 1 }
    let timeoutCounter1 := timeoutCounter + 1
    if timeoutCounter1 > maxWaitCounts then (true, hw1)
    else putU1Wait hw1 timeoutCounter1
  else (false, { hw with polls := hw.polls + 1 })
termination_by maxWaitCounts + 1 - timeoutCounter
decreasing_by omega

/-- `int putU1(int c)`: wait for room in the transmit buffer, then
`U1TXREG = c; return c;`, or `return 0x18` from inside the wait loop. -/
def putU1 (c : Nat) (hw : TxPort) : Nat × TxPort :=
  match putU1Wait hw 0 with
  | (true, hw1) => (0x18, hw1)
  | (false, hw1) => (c, { hw1 with TXREG := hw1.TXREG ++ [c] })

/-- The loop of `putsU1`:
`while( *s && (putReturn != 0x18)) { putReturn = putU1( *s++); }`.
`s` lists the bytes at `s[0]`, `s[1]`, ...; the byte after the last one listed
is the terminating null.  The result lists the `putU1` calls in order, each
with its argument and the value it returned, and gives the transmitter
afterwards. -/
def putsU1Loop : List Nat → Nat → TxPort → List (Nat × Nat) × TxPort
  | [], _, hw => ([], hw)
  | c :: rest, putReturn, hw =>
    if c ≠ 0 ∧ putReturn ≠ 0x18 then
      ((c, (putU1 c hw).1) :: (putsU1Loop rest (putU1 c hw).1 (putU1 c hw).2).1,
        (putsU1Loop rest (putU1 c hw).1 (putU1 c hw).2).2)
    else ([], hw)

/-- `void putsU1( char *s)`: the loop, entered with `int putReturn = 0;`. -/
def putsU1 (s : List Nat) (hw : TxPort) : List (Nat × Nat) × TxPort :=
  putsU1Loop s 0 hw

/-! ## Channel 1 and 2, receive side -/

/-- Receiver as one call of `getU1` (or `getU2`) sees it: `URXDA k` is the
reading of the receive-available flag at the `k`-th poll of the call, `RXREG`
the content of the receive register should the call read it. -/
structure RxPort where
  URXDA : Nat → Bool
  RXREG : Nat

/-- Outcome of one receive call: the returned byte, the number of flag polls
made and the number of reads of the receive register. -/
structure RxResult where
  val : Nat
  polls : Nat
  reads : Nat
deriving DecidableEq, Repr

/-- `unsigned long maxCount = 60000000;` of `getU1`. -/
def maxCount : Nat := 60000000

/-- The wait loop of `getU1`:
`while ((!U1STAbits.URXDA) && (uart1TimeoutCounter < maxCount)) uart1TimeoutCounter++;`.
Every evaluation of the loop condition polls the flag first.  Returns the
number of polls made and the counter at loop exit. -/
def getU1Wait (URXDA : Nat → Bool) (polls uart1TimeoutCounter : Nat) : Nat × Nat :=
  if (!URXDA polls) && decide (uart1TimeoutCounter < maxCount) then
    getU1Wait URXDA (polls + 1) (uart1TimeoutCounter + 1)
  else (polls + 1, uart1TimeoutCounter)
termination_by maxCount - uart1TimeoutCounter
decreasing_by simp at *; omega

/-- `char getU1(void)`: after the wait loop,
`if (uart1TimeoutCounter >= maxCount) return 0x18; return U1RXREG;`. -/
def getU1 (hw : RxPort) : RxResult :=
  let w := getU1Wait hw.URXDA 0 0
  if w.2 ≥ maxCount then { val := 0x18, polls := w.1, reads := 0 }
  else { val := hw.RXREG % 256, polls := w.1, reads := 1 }

/-- The wait loop of `getU2`:
`while ((!U2STAbits.URXDA) && (i < 20000)) i++;`. -/
def getU2Wait (URXDA : Nat → Bool) (polls i : Nat) : Nat × Nat :=
  if (!URXDA polls) && decide (i < 20000) then
    getU2Wait URXDA (polls + 1) (i + 1)
  else (polls + 1, i)
termination_by 20000 - i
decreasing_by simp at *; omega

/-- `unsigned char getU2(void)`: after the wait loop, `return U2RXREG;`
whatever the counter says. -/
def getU2 (hw : RxPort) : RxResult :=
  let w := getU2Wait hw.URXDA 0 0
  { val := hw.RXREG % 256, polls := w.1, reads := 1 }

/-! ## Channel 2, transmit side -/

/-- The wait loop of `putU2`: `while ( U2STAbits.UTXBF);`.  The loop has no
bound of its own, so the model follows it for `fuel` polls: the Boolean is
`true` when the loop was left within them and `false` when it is still
spinning after them.  The port is channel 2's (`U2STAbits.UTXBF`,
`U2TXREG`). -/
def putU2Wait : Nat → TxPort → Bool × TxPort
  | 0, hw => (false, hw)
  | fuel + 1, hw =>
    if hw.UTXBF hw.polls then putU2Wait fuel { hw with polls := hw.polls + 1 }
    else (true, { hw with polls := hw.polls + 1 })

/-- `unsigned char putU2( unsigned char c)`: the wait loop, then
`U2TXREG = c; return c;`.  The result is `none` when the call has not
returned within `fuel` polls. -/
def putU2 (fuel : Nat) (c : Nat) (hw : TxPort) : Option Nat × TxPort :=
  match putU2Wait fuel hw with
  | (true, hw1) => (some c, { hw1 with TXREG := hw1.TXREG ++ [c] })
  | (false, hw1) => (none, hw1)

/-! ## Channel 1, line reader -/

/-- State of `getsU1`.  `buf i` is the byte at `p[i]` (memory from the buffer
pointer on, not cut at the capacity), `s` the cursor `s - p`, `len` the count
of bytes left to read, `tx` the channel-1 transmitter.  Three fields record
what the run did: `echo` the arguments of the `putU1` calls in order,
`stores` the indices written through `*s` in order, `gets` the number of
`getU1` calls. -/
structure LineState where
  buf : Nat → Nat
  s : Nat
  len : Int
  tx : TxPort
  echo : List Nat
  stores : List Nat
  gets : Nat

/-- Receiver on a silent link: the flag never reads "data". -/
def silent : RxPort := { URXDA := fun _ => false, RXREG := 0 }

/-- Receiver that has the byte `b` ready at the first poll. -/
def ready (b : Nat) : RxPort := { URXDA := fun _ => true, RXREG := b }

/-- Transmitter that is never full, before any poll or write. -/
def idle : TxPort := { UTXBF := fun _ => false, polls := 0, TXREG := [] }

/-- `*s = v;` -/
def LineState.store (st : LineState) (v : Nat) : LineState :=
  { st with buf := Function.update st.buf st.s v, stores := st.stores ++ [st.s] }

/-- `putU1( v);` as a statement: the returned value is dropped. -/
def LineState.put (st : LineState) (v : Nat) : LineState :=
  { st with tx := (putU1 v st.tx).2, echo := st.echo ++ [v] }

/-- How one pass through the body of the `do ... while` ends: at the loop
test `len>1` (end of the body or `continue`) or at a `break`. -/
inductive Flow where
  | test
  | leave
deriving DecidableEq, Repr

/-- Body of the `do ... while` of `getsU1`, from the assignment `*s = getU1()`
on; `c` is the byte `getU1` returned.  The later `*s` are reads of
`st.buf st.s`. -/
def getsU1Body (BACKSPACE : Nat) (c : Nat) (st : LineState) : Flow × LineState :=
  let st1 := st.store c
  let st2 := if st1.buf st1.s ≠ 0x18 then st1.put (st1.buf st1.s) else st1
  if st2.buf st2.s = BACKSPACE ∧ st2.s > 0 then
    let st3 := (st2.put 0x20).put BACKSPACE
    (Flow.test, { st3 with len := st3.len + 1, s := st3.s - 1 })
  else if st2.buf st2.s = 0x0A then (Flow.test, st2)
  else if st2.buf st2.s = 0x0D then (Flow.leave, st2)
  else if st2.buf st2.s = 0x18 then (Flow.leave, { st2 with s := st2.s + 1 })
  else (Flow.test, { st2 with s := st2.s + 1, len := st2.len - 1 })

/-- The byte one call of `getU1` returns on the receiver readings `e`. -/
def rxByte (e : RxPort) : Nat := (getU1 e).val

/-- One pass of the `do ... while` of `getsU1`: the call of `getU1`, then the
body.  `rx` lists what the receiver shows during the successive `getU1`
calls still to come; once the list is used up the link is silent. -/
def getsU1Pass (BACKSPACE : Nat) (rx : List RxPort) (st : LineState) : Flow × LineState :=
  getsU1Body BACKSPACE (getU1 (rx.headD silent)).val { st with gets := st.gets + 1 }

/-! ### Notions used to state and prove the properties of the line reader -/

/-- State after a pass of the loop that stores `c` as an ordinary byte: the
`getU1` call, `*s = c`, the echo, `s++`, `len--`. -/
def LineState.keep (st : LineState) (c : Nat) : LineState :=
  { ({ st with gets := st.gets + 1 }.store c).put c with s := st.s + 1, len := st.len - 1 }

/-- Two states of `getsU1` with the same cursor, the same `len` and the same
bytes below the cursor. -/
def Agree (st1 st2 : LineState) : Prop :=
  st1.s = st2.s ∧ st1.len = st2.len ∧ ∀ i, i < st1.s → st1.buf i = st2.buf i

/-- What holds at the top of the loop of `getsU1` when the capacity is 2 or
more: cursor plus `len` is the capacity, `len` is above 1, and every index
written so far is below the capacity. -/
def InBounds (cap : Int) (st : LineState) : Prop :=
  (st.s : Int) + st.len = cap ∧ st.len > 1 ∧ ∀ i, i ∈ st.stores → (i : Int) < cap

/-- Two states of `getsU1` that differ in the transmitter at most. -/
def SameLine (st1 st2 : LineState) : Prop :=
  st1.buf = st2.buf ∧ st1.s = st2.s ∧ st1.len = st2.len ∧ st1.echo = st2.echo ∧
    st1.stores = st2.stores ∧ st1.gets = st2.gets

/-- What holds of the bytes below the cursor at the top of the loop of
`getsU1`: none is a carriage return, a line feed or 0x18, and BACKSPACE stands
at index 0 at most. -/
def LineShape (B : Nat) (st : LineState) : Prop :=
  ∀ i, i < st.s → st.buf i ≠ 0x0D ∧ st.buf i ≠ 0x0A ∧ st.buf i ≠ 0x18 ∧ (st.buf i = B → i = 0)

/-- What holds of the state when the loop of `getsU1` is left, for the
capacity `cap` passed in: the bytes below the cursor hold no carriage return
and no line feed, 0x18 as the last of them at most and BACKSPACE at index 0
at most; and cursor plus `len` is the capacity with no 0x18 below the cursor,
or the capacity plus one with 0x18 just below the cursor. -/
def Returned (B : Nat) (cap : Int) (st : LineState) : Prop :=
  (∀ i, i < st.s → st.buf i ≠ 0x0D ∧ st.buf i ≠ 0x0A ∧ (st.buf i = 0x18 → i + 1 = st.s) ∧
    (st.buf i = B → i = 0)) ∧
  (((st.s : Int) + st.len = cap ∧ ∀ i, i < st.s → st.buf i ≠ 0x18) ∨
    ((st.s : Int) + st.len = cap + 1 ∧ 0 < st.s ∧ st.buf (st.s - 1) = 0x18))

/-- Two states of `getsU1` with the same cursor, the same `len` and the same
bytes everywhere but at the cursor. -/
def AgreeOff (st1 st2 : LineState) : Prop :=
  st1.s = st2.s ∧ st1.len = st2.len ∧ ∀ i, i ≠ st1.s → st1.buf i = st2.buf i

/-- Two states of `getsU1` with the same cursor, the same `len` and the same
bytes everywhere. -/
def AgreeAll (st1 st2 : LineState) : Prop :=
  st1.s = st2.s ∧ st1.len = st2.len ∧ st1.buf = st2.buf

/-- The echo a byte gets, by the rule of the line reader: nothing for 0x18;
BACKSPACE, space, BACKSPACE for a BACKSPACE read with the cursor past the
buffer start; the byte itself for every other byte.  `p` is the byte and the
cursor at the time of the read. -/
def echoOf (BACKSPACE : Nat) (p : Nat × Nat) : List Nat :=
  if p.1 = 0x18 then []
  else if p.1 = BACKSPACE ∧ p.2 > 0 then [BACKSPACE, 0x20, BACKSPACE]
  else [p.1]

/-- A state of `getsU1` whose transmitter is never full and has been written
the bytes `T` and then every argument of the `putU1` calls so far. -/
def Wired (T : List Nat) (st : LineState) : Prop :=
  (∀ k, st.tx.UTXBF k = false) ∧ st.tx.TXREG = T ++ st.echo

/-! ## Wait loops

What each busy-wait loop returns, by induction on the number of polls that
read "busy". -/

theorem putU1Wait_ready (n : Nat) : ∀ (hw : TxPort) (t : Nat),
    t + n ≤ maxWaitCounts →
    (∀ j, j < n → hw.UTXBF (hw.polls + j) = true) →
    hw.UTXBF (hw.polls + n) = false →
    putU1Wait hw t = (false, { hw with polls := hw.polls + n + 1 }) := by
  induction n with
  | zero =>
    intro hw t _ _ hfree
    rw [putU1Wait]
    simp at hfree
    simp [hfree]
  | succ n ih =>
    intro hw t hle hfull hfree
    rw [putU1Wait]
    have h0 : hw.UTXBF hw.polls = true := by simpa using hfull 0 (Nat.succ_pos n)
    have hnot : ¬ t + 1 > maxWaitCounts := by omega
    simp only [h0, if_true, hnot, if_false]
    rw [ih { hw with polls := hw.polls + 1 } (t + 1) (by omega)]
    · simp only [Nat.add_assoc, Nat.add_comm 1 n]
    · intro j hj
      have := hfull (j + 1) (by omega)
      simpa [Nat.add_assoc, Nat.add_comm 1 j] using this
    · simpa [Nat.add_assoc, Nat.add_comm 1 n] using hfree

theorem putU1Wait_timeout (n : Nat) : ∀ (hw : TxPort) (t : Nat),
    t + (n + 1) = maxWaitCounts + 1 →
    (∀ j, j < n + 1 → hw.UTXBF (hw.polls + j) = true) →
    putU1Wait hw t = (true, { hw with polls := hw.polls + (n + 1) }) := by
  induction n with
  | zero =>
    intro hw t ht hfull
    rw [putU1Wait]
    have h0 : hw.UTXBF hw.polls = true := by simpa using hfull 0 (by omega)
    have hgt : t + 1 > maxWaitCounts := by omega
    simp [h0, hgt]
  | succ n ih =>
    intro hw t ht hfull
    rw [putU1Wait]
    have h0 : hw.UTXBF hw.polls = true := by simpa using hfull 0 (by omega)
    have hnot : ¬ t + 1 > maxWaitCounts := by omega
    simp only [h0, if_true, hnot, if_false]
    rw [ih { hw with polls := hw.polls + 1 } (t + 1) (by omega)]
    · simp only [Nat.add_assoc, Nat.add_comm 1 (n + 1)]
    · intro j hj
      have := hfull (j + 1) (by omega)
      simpa [Nat.add_assoc, Nat.add_comm 1 j] using this

theorem getU1Wait_data (URXDA : Nat → Bool) (n : Nat) : ∀ (polls t : Nat),
    t + n < maxCount →
    (∀ j, j < n → URXDA (polls + j) = false) →
    URXDA (polls + n) = true →
    getU1Wait URXDA polls t = (polls + n + 1, t + n) := by
  induction n with
  | zero =>
    intro polls t _ _ hdata
    rw [getU1Wait]
    simp at hdata
    simp [hdata]
  | succ n ih =>
    intro polls t hlt hnone hdata
    rw [getU1Wait]
    have h0 : URXDA polls = false := by simpa using hnone 0 (Nat.succ_pos n)
    have hlt1 : t < maxCount := by omega
    simp only [h0, Bool.not_false, Bool.true_and, decide_eq_true_eq, hlt1, if_true]
    rw [ih (polls + 1) (t + 1) (by omega)]
    · simp only [Nat.add_assoc, Nat.add_comm 1 n]
    · intro j hj
      have := hnone (j + 1) (by omega)
      simpa [Nat.add_assoc, Nat.add_comm 1 j] using this
    · simpa [Nat.add_assoc, Nat.add_comm 1 n] using hdata

theorem getU1Wait_silent (URXDA : Nat → Bool) (n : Nat) : ∀ (polls t : Nat),
    t + n = maxCount →
    (∀ j, j < n → URXDA (polls + j) = false) →
    getU1Wait URXDA polls t = (polls + n + 1, maxCount) := by
  induction n with
  | zero =>
    intro polls t ht _
    rw [getU1Wait]
    have hnot : ¬ t < maxCount := by omega
    have ht2 : t = maxCount := by omega
    simp [hnot, ht2]
  | succ n ih =>
    intro polls t ht hnone
    rw [getU1Wait]
    have h0 : URXDA polls = false := by simpa using hnone 0 (Nat.succ_pos n)
    have hlt1 : t < maxCount := by omega
    simp only [h0, Bool.not_false, Bool.true_and, decide_eq_true_eq, hlt1, if_true]
    rw [ih (polls + 1) (t + 1) (by omega)]
    · simp only [Nat.add_assoc, Nat.add_comm 1 n]
    · intro j hj
      have := hnone (j + 1) (by omega)
      simpa [Nat.add_assoc, Nat.add_comm 1 j] using this

/-- `getU1` when the first 60000000 polls all read "no data": the loop makes
one more poll, leaves with the counter at `maxCount`, and 0x18 is returned
without a read of the receive register. -/
theorem getU1_timeout (hw : RxPort) (h : ∀ k, k < maxCount → hw.URXDA k = false) :
    getU1 hw = { val := 0x18, polls := maxCount + 1, reads := 0 } := by
  have hw1 := getU1Wait_silent hw.URXDA maxCount 0 0 (by simp)
    (by intro j hj; simpa using h j hj)
  simp [getU1, hw1]

/-- `getU1` when data shows up at poll `k` (the first such poll), within the
budget: the receive register is read once and its byte returned. -/
theorem getU1_data (hw : RxPort) (k : Nat) (hk : k < maxCount)
    (hnone : ∀ j, j < k → hw.URXDA j = false) (hdata : hw.URXDA k = true) :
    getU1 hw = { val := hw.RXREG % 256, polls := k + 1, reads := 1 } := by
  have hw1 := getU1Wait_data hw.URXDA k 0 0 (by omega)
    (by intro j hj; simpa using hnone j hj) (by simpa using hdata)
  have hnot : ¬ maxCount ≤ k := by omega
  simp [getU1, hw1, hnot]

theorem getU1_of_data (hw : RxPort) (h : ∃ k, k < maxCount ∧ hw.URXDA k = true) :
    (getU1 hw).val = hw.RXREG % 256 ∧ (getU1 hw).reads = 1 := by
  classical
  have hex : ∃ k, hw.URXDA k = true := by
    obtain ⟨k, _, hk⟩ := h
    exact ⟨k, hk⟩
  have hbound : Nat.find hex < maxCount := by
    obtain ⟨k, hk, hk2⟩ := h
    exact lt_of_le_of_lt (Nat.find_min' hex hk2) hk
  have hnone : ∀ j, j < Nat.find hex → hw.URXDA j = false := by
    intro j hj
    have := Nat.find_min hex hj
    simpa using this
  rw [getU1_data hw (Nat.find hex) hbound hnone (Nat.find_spec hex)]
  exact ⟨rfl, rfl⟩

theorem getU2Wait_silent (URXDA : Nat → Bool) (n : Nat) : ∀ (polls i : Nat),
    i + n = 20000 →
    (∀ j, j < n → URXDA (polls + j) = false) →
    getU2Wait URXDA polls i = (polls + n + 1, 20000) := by
  induction n with
  | zero =>
    intro polls i hi _
    rw [getU2Wait]
    have hnot : ¬ i < 20000 := by omega
    have hi2 : i = 20000 := by omega
    simp [hnot, hi2]
  | succ n ih =>
    intro polls i hi hnone
    rw [getU2Wait]
    have h0 : URXDA polls = false := by simpa using hnone 0 (Nat.succ_pos n)
    have hlt1 : i < 20000 := by omega
    simp only [h0, Bool.not_false, Bool.true_and, decide_eq_true_eq, hlt1, if_true]
    rw [ih (polls + 1) (i + 1) (by omega)]
    · simp only [Nat.add_assoc, Nat.add_comm 1 n]
    · intro j hj
      have := hnone (j + 1) (by omega)
      simpa [Nat.add_assoc, Nat.add_comm 1 j] using this

/-- `getU2` when the receive-available flag stays clear for the whole budget
of 20000: the loop gives up after 20001 polls and the receive register is
read all the same. -/
theorem getU2_timeout (hw : RxPort) (h : ∀ k, k < 20000 → hw.URXDA k = false) :
    getU2 hw = { val := hw.RXREG % 256, polls := 20001, reads := 1 } := by
  have hw1 := getU2Wait_silent hw.URXDA 20000 0 0 (by simp)
    (by intro j hj; simpa using h j hj)
  simp [getU2, hw1]

/-! ## Channel 1, line reader: the loop

The loop of `getsU1` ends on every list of receiver readings: a pass uses up
one entry of the list and moves the cursor up by one at most, and on a silent
link `getU1` returns 0x18, on which the body either breaks or moves the cursor
down.  The three facts this takes come before the definition. -/

theorem getU1_silent : (getU1 silent).val = 0x18 := by
  rw [getU1_timeout silent (fun _ _ => rfl)]

theorem getsU1Body_s_le (B c : Nat) (st : LineState) :
    (getsU1Body B c st).2.s ≤ st.s + 1 := by
  simp only [getsU1Body, LineState.store, LineState.put]
  split_ifs <;> simp <;> omega

theorem getsU1Body_sentinel_s_lt (B : Nat) (st : LineState)
    (h : (getsU1Body B 0x18 st).1 = Flow.test) : (getsU1Body B 0x18 st).2.s < st.s := by
  simp only [getsU1Body, LineState.store, LineState.put, Function.update_same] at h ⊢
  split_ifs at h ⊢ <;> simp_all

theorem getsU1Pass_decreases (B : Nat) (rx : List RxPort) (st : LineState)
    (h : (getsU1Pass B rx st).1 = Flow.test) :
    2 * rx.tail.length + (getsU1Pass B rx st).2.s < 2 * rx.length + st.s := by
  cases rx with
  | nil =>
    simp only [getsU1Pass, List.headD_nil, getU1_silent] at h ⊢
    have := getsU1Body_sentinel_s_lt B { st with gets := st.gets + 1 } h
    simpa using this
  | cons e rest =>
    have := getsU1Body_s_le B (getU1 e).val { st with gets := st.gets + 1 }
    simp only [getsU1Pass, List.headD_cons, List.tail_cons, List.length_cons]
    simp only at this
    omega

/-- The `do { ... } while ( len>1 );` of `getsU1`: pass after pass, as long as
a pass ends at the loop test with `len > 1`. -/
def getsU1Loop (BACKSPACE : Nat) (rx : List RxPort) (st : LineState) : LineState :=
  if (getsU1Pass BACKSPACE rx st).1 = Flow.test ∧ (getsU1Pass BACKSPACE rx st).2.len > 1 then
    getsU1Loop BACKSPACE rx.tail (getsU1Pass BACKSPACE rx st).2
  else (getsU1Pass BACKSPACE rx st).2
termination_by 2 * rx.length + st.s
decreasing_by
  rename_i h
  exact getsU1Pass_decreases BACKSPACE rx st h.1

/-- `char *getsU1( char *s, int len)`: the loop from cursor 0, then
`*s = '\0';`.  The returned pointer is the buffer pointer `p`; the result
here is the final state. -/
def getsU1 (BACKSPACE : Nat) (rx : List RxPort) (tx : TxPort) (buf : Nat → Nat)
    (len : Int) : LineState :=
  (getsU1Loop BACKSPACE rx
    { buf := buf, s := 0, len := len, tx := tx, echo := [], stores := [], gets := 0 }).store 0

/-- The bytes `getsU1` reads, in order, each with the cursor at the time of
the read: one entry for every pass of the loop, which goes on exactly as in
`getsU1Loop`. -/
def getsU1Reads (BACKSPACE : Nat) (rx : List RxPort) (st : LineState) : List (Nat × Nat) :=
  if (getsU1Pass BACKSPACE rx st).1 = Flow.test ∧ (getsU1Pass BACKSPACE rx st).2.len > 1 then
    (rxByte (rx.headD silent), st.s) :: getsU1Reads BACKSPACE rx.tail (getsU1Pass BACKSPACE rx st).2
  else [(rxByte (rx.headD silent), st.s)]
termination_by 2 * rx.length + st.s
decreasing_by
  rename_i h
  exact getsU1Pass_decreases BACKSPACE rx st h.1

/-! ## The body of the loop, byte class by byte class -/

theorem getsU1Body_ordinary (B c : Nat) (st : LineState) (h18 : c ≠ 0x18) (hlf : c ≠ 0x0A)
    (hcr : c ≠ 0x0D) (hbs : c ≠ B ∨ st.s = 0) :
    getsU1Body B c st
      = (Flow.test, { (st.store c).put c with s := st.s + 1, len := st.len - 1 }) := by
  have hb : ¬ (c = B ∧ st.s > 0) := by
    rintro ⟨h1, h2⟩
    rcases hbs with h | h
    · exact h h1
    · omega
  simp [getsU1Body, LineState.store, LineState.put, h18, hlf, hcr, hb]

theorem getsU1Body_line_feed (B : Nat) (st : LineState) (hbs : B ≠ 0x0A ∨ st.s = 0) :
    getsU1Body B 0x0A st = (Flow.test, (st.store 0x0A).put 0x0A) := by
  have hb : ¬ (0x0A = B ∧ st.s > 0) := by
    rintro ⟨h1, h2⟩
    rcases hbs with h | h
    · exact h h1.symm
    · omega
  simp [getsU1Body, LineState.store, LineState.put, hb]

theorem getsU1Body_carriage_return (B : Nat) (st : LineState) (hbs : B ≠ 0x0D ∨ st.s = 0) :
    getsU1Body B 0x0D st = (Flow.leave, (st.store 0x0D).put 0x0D) := by
  have hb : ¬ (0x0D = B ∧ st.s > 0) := by
    rintro ⟨h1, h2⟩
    rcases hbs with h | h
    · exact h h1.symm
    · omega
  simp [getsU1Body, LineState.store, LineState.put, hb]

theorem getsU1Body_sentinel (B : Nat) (st : LineState) (hbs : B ≠ 0x18 ∨ st.s = 0) :
    getsU1Body B 0x18 st = (Flow.leave, { st.store 0x18 with s := st.s + 1 }) := by
  have hb : ¬ (0x18 = B ∧ st.s > 0) := by
    rintro ⟨h1, h2⟩
    rcases hbs with h | h
    · exact h h1.symm
    · omega
  simp [getsU1Body, LineState.store, hb]

theorem getsU1Body_backspace (B : Nat) (st : LineState) (hs : 0 < st.s) :
    (getsU1Body B B st).1 = Flow.test ∧
    (getsU1Body B B st).2.s = st.s - 1 ∧
    (getsU1Body B B st).2.len = st.len + 1 ∧
    (getsU1Body B B st).2.buf = Function.update st.buf st.s B ∧
    (getsU1Body B B st).2.gets = st.gets ∧
    (getsU1Body B B st).2.stores = st.stores ++ [st.s] := by
  by_cases h18 : B = 0x18 <;>
    simp [getsU1Body, LineState.store, LineState.put, h18, hs]

theorem rxByte_ready (b : Nat) : rxByte (ready b) = b % 256 := by
  rw [rxByte, getU1_data (ready b) 0 (by decide) (by simp) rfl]
  rfl

theorem rxByte_silent : rxByte silent = 0x18 := by
  rw [rxByte]
  exact getU1_silent

theorem getsU1Pass_cons (B : Nat) (e : RxPort) (rest : List RxPort) (st : LineState) :
    getsU1Pass B (e :: rest) st = getsU1Body B (rxByte e) { st with gets := st.gets + 1 } := rfl

theorem getsU1Pass_nil (B : Nat) (st : LineState) :
    getsU1Pass B [] st = getsU1Body B 0x18 { st with gets := st.gets + 1 } := by
  simp [getsU1Pass, getU1_silent]

theorem getsU1Loop_again (B : Nat) (rx : List RxPort) (st : LineState)
    (h1 : (getsU1Pass B rx st).1 = Flow.test) (h2 : (getsU1Pass B rx st).2.len > 1) :
    getsU1Loop B rx st = getsU1Loop B rx.tail (getsU1Pass B rx st).2 := by
  rw [getsU1Loop]
  simp [h1, h2]

theorem getsU1Loop_done (B : Nat) (rx : List RxPort) (st : LineState)
    (h : ¬ ((getsU1Pass B rx st).1 = Flow.test ∧ (getsU1Pass B rx st).2.len > 1)) :
    getsU1Loop B rx st = (getsU1Pass B rx st).2 := by
  rw [getsU1Loop]
  simp only [h, if_false]

/-! ## Runs of the loop -/

theorem getsU1Loop_ordinary (B : Nat) (e : RxPort) (rest : List RxPort) (st : LineState)
    (h18 : rxByte e ≠ 0x18) (hlf : rxByte e ≠ 0x0A) (hcr : rxByte e ≠ 0x0D)
    (hbs : rxByte e ≠ B ∨ st.s = 0) :
    getsU1Loop B (e :: rest) st
      = if st.len - 1 > 1 then getsU1Loop B rest (st.keep (rxByte e))
        else st.keep (rxByte e) := by
  have hp : getsU1Pass B (e :: rest) st = (Flow.test, st.keep (rxByte e)) := by
    rw [getsU1Pass_cons]
    exact getsU1Body_ordinary B _ _ h18 hlf hcr hbs
  have hlen : (st.keep (rxByte e)).len = st.len - 1 := rfl
  by_cases hgt : st.len - 1 > 1
  · rw [getsU1Loop_again B (e :: rest) st (by rw [hp]) (by rw [hp]; exact hgt), hp]
    simp [hgt]
  · rw [getsU1Loop_done B (e :: rest) st (by rw [hp]; simp [hlen, hgt]), hp]
    simp [hgt]

theorem getsU1Loop_carriage_return (B : Nat) (e : RxPort) (rest : List RxPort)
    (st : LineState) (he : rxByte e = 0x0D) (hbs : B ≠ 0x0D ∨ st.s = 0) :
    getsU1Loop B (e :: rest) st = ({ st with gets := st.gets + 1 }.store 0x0D).put 0x0D := by
  have hp : getsU1Pass B (e :: rest) st
      = (Flow.leave, ({ st with gets := st.gets + 1 }.store 0x0D).put 0x0D) := by
    rw [getsU1Pass_cons, he]
    exact getsU1Body_carriage_return B _ hbs
  rw [getsU1Loop_done B (e :: rest) st (by simp [hp]), hp]

theorem getsU1Loop_sentinel (B : Nat) (e : RxPort) (rest : List RxPort)
    (st : LineState) (he : rxByte e = 0x18) (hbs : B ≠ 0x18 ∨ st.s = 0) :
    getsU1Loop B (e :: rest) st
      = { { st with gets := st.gets + 1 }.store 0x18 with s := st.s + 1 } := by
  have hp : getsU1Pass B (e :: rest) st
      = (Flow.leave, { { st with gets := st.gets + 1 }.store 0x18 with s := st.s + 1 }) := by
    rw [getsU1Pass_cons, he]
    exact getsU1Body_sentinel B _ hbs
  rw [getsU1Loop_done B (e :: rest) st (by simp [hp]), hp]

theorem getsU1Loop_silent (B : Nat) (st : LineState) (hbs : B ≠ 0x18 ∨ st.s = 0) :
    getsU1Loop B [] st = { { st with gets := st.gets + 1 }.store 0x18 with s := st.s + 1 } := by
  have hp : getsU1Pass B [] st
      = (Flow.leave, { { st with gets := st.gets + 1 }.store 0x18 with s := st.s + 1 }) := by
    rw [getsU1Pass_nil]
    exact getsU1Body_sentinel B _ hbs
  rw [getsU1Loop_done B [] st (by simp [hp]), hp]

theorem keep_len (st : LineState) (c : Nat) : (st.keep c).len = st.len - 1 := rfl

theorem keep_foldl_s (w : List Nat) : ∀ st : LineState,
    (w.foldl LineState.keep st).s = st.s + w.length := by
  induction w with
  | nil => intro st; rfl
  | cons c w ih =>
    intro st
    rw [List.foldl_cons, ih]
    simp only [LineState.keep, LineState.store, LineState.put, List.length_cons]
    omega

theorem keep_foldl_len (w : List Nat) : ∀ st : LineState,
    (w.foldl LineState.keep st).len = st.len - w.length := by
  induction w with
  | nil => intro st; simp
  | cons c w ih =>
    intro st
    rw [List.foldl_cons, ih]
    simp only [LineState.keep, LineState.store, LineState.put, List.length_cons]
    push_cast
    omega

theorem keep_foldl_gets (w : List Nat) : ∀ st : LineState,
    (w.foldl LineState.keep st).gets = st.gets + w.length := by
  induction w with
  | nil => intro st; rfl
  | cons c w ih =>
    intro st
    rw [List.foldl_cons, ih]
    simp only [LineState.keep, LineState.store, LineState.put, List.length_cons]
    omega

theorem keep_foldl_buf_below (w : List Nat) : ∀ (st : LineState) (j : Nat), j < st.s →
    (w.foldl LineState.keep st).buf j = st.buf j := by
  induction w with
  | nil => intro st j _; rfl
  | cons c w ih =>
    intro st j hj
    rw [List.foldl_cons, ih (st.keep c) j (by simp only [LineState.keep]; omega)]
    have hne : j ≠ st.s := by omega
    simp [LineState.keep, LineState.store, LineState.put, Function.update_noteq hne]

theorem keep_foldl_buf (w : List Nat) : ∀ (st : LineState) (i : Nat) (h : i < w.length),
    (w.foldl LineState.keep st).buf (st.s + i) = w[i] := by
  induction w with
  | nil => intro st i h; simp at h
  | cons c w ih =>
    intro st i h
    rw [List.foldl_cons]
    cases i with
    | zero =>
      rw [keep_foldl_buf_below w (st.keep c) (st.s + 0) (by simp [LineState.keep])]
      simp [LineState.keep, LineState.store, LineState.put]
    | succ i =>
      have h2 : i < w.length := by simpa using h
      have := ih (st.keep c) i h2
      have hs : (st.keep c).s = st.s + 1 := rfl
      rw [hs] at this
      rw [show st.s + (i + 1) = st.s + 1 + i by omega, this]
      simp

/-- A run of ordinary bytes that leaves room: the loop goes through them all,
one pass a byte, and is still reading afterwards. -/
theorem getsU1Loop_ordinary_prefix (B : Nat) (l1 : List RxPort) : ∀ (l2 : List RxPort)
    (st : LineState),
    (∀ e, e ∈ l1 → rxByte e ≠ B ∧ rxByte e ≠ 0x0A ∧ rxByte e ≠ 0x0D ∧ rxByte e ≠ 0x18) →
    (l1.length : Int) < st.len - 1 →
    getsU1Loop B (l1 ++ l2) st
      = getsU1Loop B l2 ((l1.map rxByte).foldl LineState.keep st) := by
  induction l1 with
  | nil => intro l2 st _ _; rfl
  | cons e l1 ih =>
    intro l2 st hord hlen
    have he := hord e (List.mem_cons_self e l1)
    simp only [List.length_cons] at hlen
    push_cast at hlen
    rw [List.cons_append, getsU1Loop_ordinary B e (l1 ++ l2) st he.2.2.2 he.2.1 he.2.2.1
      (Or.inl he.1)]
    have hgt : st.len - 1 > 1 := by omega
    simp only [hgt, if_true, List.map_cons, List.foldl_cons]
    apply ih
    · intro e2 he2
      exact hord e2 (List.mem_cons_of_mem e he2)
    · have : (st.keep (rxByte e)).len = st.len - 1 := rfl
      rw [this]
      omega

/-- A run of ordinary bytes that fills the buffer: the loop stops after the
last of them, at `len = 1`, without another `getU1` call. -/
theorem getsU1Loop_fill (B : Nat) (l1 l2 : List RxPort) (st : LineState)
    (hord : ∀ e, e ∈ l1 → rxByte e ≠ B ∧ rxByte e ≠ 0x0A ∧ rxByte e ≠ 0x0D ∧ rxByte e ≠ 0x18)
    (hne : l1 ≠ []) (hlen : (l1.length : Int) = st.len - 1) :
    getsU1Loop B (l1 ++ l2) st = (l1.map rxByte).foldl LineState.keep st := by
  rcases List.eq_nil_or_concat l1 with h | ⟨l0, e, h⟩
  · exact absurd h hne
  · rw [List.concat_eq_append] at h
    subst h
    have hl0 : (l0.length : Int) < st.len - 1 := by
      simp only [List.length_append, List.length_singleton] at hlen
      push_cast at hlen
      omega
    have he := hord e (by simp)
    rw [List.append_assoc, getsU1Loop_ordinary_prefix B l0 ([e] ++ l2) st
      (fun e2 he2 => hord e2 (by simp [he2])) hl0]
    rw [List.singleton_append, getsU1Loop_ordinary B e l2 _ he.2.2.2 he.2.1 he.2.2.1
      (Or.inl he.1)]
    have hlen2 : ((l0.map rxByte).foldl LineState.keep st).len = 2 := by
      rw [keep_foldl_len]
      simp only [List.length_append, List.length_singleton, List.length_map] at hlen ⊢
      push_cast at hlen
      omega
    simp [hlen2]

theorem getsU1Loop_line_feed (B : Nat) (e : RxPort) (rest : List RxPort) (st : LineState)
    (he : rxByte e = 0x0A) (hbs : B ≠ 0x0A ∨ st.s = 0) :
    getsU1Loop B (e :: rest) st
      = if st.len > 1 then
          getsU1Loop B rest (({ st with gets := st.gets + 1 }.store 0x0A).put 0x0A)
        else ({ st with gets := st.gets + 1 }.store 0x0A).put 0x0A := by
  have hp : getsU1Pass B (e :: rest) st
      = (Flow.test, ({ st with gets := st.gets + 1 }.store 0x0A).put 0x0A) := by
    rw [getsU1Pass_cons, he]
    exact getsU1Body_line_feed B _ hbs
  have hlen : (({ st with gets := st.gets + 1 }.store 0x0A).put 0x0A).len = st.len := rfl
  by_cases hgt : st.len > 1
  · rw [getsU1Loop_again B (e :: rest) st (by rw [hp]) (by rw [hp]; exact hgt), hp]
    simp [hgt]
  · rw [getsU1Loop_done B (e :: rest) st (by rw [hp]; simp [hlen, hgt]), hp]
    simp [hgt]

/-! ## Two runs that agree below the cursor -/

theorem Agree.refl (st : LineState) : Agree st st := ⟨rfl, rfl, fun _ _ => rfl⟩

theorem getsU1Body_agree (B c : Nat) (st1 st2 : LineState) (h : Agree st1 st2) :
    (getsU1Body B c st1).1 = (getsU1Body B c st2).1 ∧
    Agree (getsU1Body B c st1).2 (getsU1Body B c st2).2 := by
  obtain ⟨hs, hl, hb⟩ := h
  have hupd : ∀ i, i < st1.s + 1 →
      Function.update st1.buf st1.s c i = Function.update st2.buf st2.s c i := by
    intro i hi
    rw [← hs]
    by_cases hi2 : i = st1.s
    · subst hi2; simp
    · rw [Function.update_noteq hi2, Function.update_noteq hi2]
      exact hb i (by omega)
  by_cases hbs : c = B ∧ st1.s > 0
  · obtain ⟨hc, hpos⟩ := hbs
    subst hc
    have h1 := getsU1Body_backspace c st1 hpos
    have h2 := getsU1Body_backspace c st2 (by omega)
    refine ⟨by rw [h1.1, h2.1], ?_, ?_, ?_⟩
    · rw [h1.2.1, h2.2.1, hs]
    · rw [h1.2.2.1, h2.2.2.1, hl]
    · intro i hi
      rw [h1.2.1] at hi
      rw [h1.2.2.2.1, h2.2.2.2.1]
      exact hupd i (by omega)
  · have hbs1 : c ≠ B ∨ st1.s = 0 := by
      by_contra hh
      push_neg at hh
      exact hbs ⟨hh.1, by omega⟩
    have hbs2 : c ≠ B ∨ st2.s = 0 := by rw [← hs]; exact hbs1
    by_cases hlf : c = 0x0A
    · subst hlf
      rw [getsU1Body_line_feed B st1 (hbs1.imp Ne.symm id),
        getsU1Body_line_feed B st2 (hbs2.imp Ne.symm id)]
      refine ⟨rfl, hs, hl, ?_⟩
      intro i hi
      exact hupd i (Nat.lt_succ_of_lt hi)
    · by_cases hcr : c = 0x0D
      · subst hcr
        rw [getsU1Body_carriage_return B st1 (hbs1.imp Ne.symm id),
          getsU1Body_carriage_return B st2 (hbs2.imp Ne.symm id)]
        refine ⟨rfl, hs, hl, ?_⟩
        intro i hi
        exact hupd i (Nat.lt_succ_of_lt hi)
      · by_cases h18 : c = 0x18
        · subst h18
          rw [getsU1Body_sentinel B st1 (hbs1.imp Ne.symm id),
            getsU1Body_sentinel B st2 (hbs2.imp Ne.symm id)]
          refine ⟨rfl, congrArg (· + 1) hs, hl, ?_⟩
          intro i hi
          exact hupd i hi
        · rw [getsU1Body_ordinary B c st1 h18 hlf hcr hbs1,
            getsU1Body_ordinary B c st2 h18 hlf hcr hbs2]
          refine ⟨rfl, congrArg (· + 1) hs, congrArg (· - 1) hl, ?_⟩
          intro i hi
          exact hupd i hi

theorem getsU1Pass_agree (B : Nat) (rx : List RxPort) (st1 st2 : LineState)
    (h : Agree st1 st2) :
    (getsU1Pass B rx st1).1 = (getsU1Pass B rx st2).1 ∧
    Agree (getsU1Pass B rx st1).2 (getsU1Pass B rx st2).2 :=
  getsU1Body_agree B _ _ _ ⟨h.1, h.2.1, h.2.2⟩

/-- The loop keeps two runs on the same received bytes together: same
cursor, same `len`, same bytes below the cursor on return. -/
theorem getsU1Loop_agree (B : Nat) (rx : List RxPort) (st1 : LineState) :
    ∀ st2, Agree st1 st2 → Agree (getsU1Loop B rx st1) (getsU1Loop B rx st2) := by
  induction rx, st1 using getsU1Loop.induct B with
  | case1 rx st1 hgo ih =>
    intro st2 h
    have hp := getsU1Pass_agree B rx st1 st2 h
    have hgo2 : (getsU1Pass B rx st2).1 = Flow.test ∧ (getsU1Pass B rx st2).2.len > 1 := by
      rw [← hp.1, ← hp.2.2.1]
      exact hgo
    rw [getsU1Loop_again B rx st1 hgo.1 hgo.2, getsU1Loop_again B rx st2 hgo2.1 hgo2.2]
    exact ih _ hp.2
  | case2 rx st1 hstop =>
    intro st2 h
    have hp := getsU1Pass_agree B rx st1 st2 h
    have hstop2 : ¬ ((getsU1Pass B rx st2).1 = Flow.test ∧ (getsU1Pass B rx st2).2.len > 1) := by
      rw [← hp.1, ← hp.2.2.1]
      exact hstop
    rw [getsU1Loop_done B rx st1 hstop, getsU1Loop_done B rx st2 hstop2]
    exact hp.2

/-! ## The cursor and the capacity -/

theorem getsU1Body_in_bounds (B c : Nat) (cap : Int) (st : LineState)
    (h : InBounds cap st) :
    (∀ i, i ∈ (getsU1Body B c st).2.stores → (i : Int) < cap) ∧
    ((getsU1Body B c st).2.s : Int) ≤ cap - 1 ∧
    ((getsU1Body B c st).1 = Flow.test →
      ((getsU1Body B c st).2.s : Int) + (getsU1Body B c st).2.len = cap) := by
  obtain ⟨hsum, hlen, hst⟩ := h
  have hst2 : ∀ i, i ∈ st.stores ++ [st.s] → (i : Int) < cap := by
    intro i hi
    rcases List.mem_append.mp hi with h1 | h1
    · exact hst i h1
    · rw [List.mem_singleton.mp h1]
      omega
  by_cases hbs : c = B ∧ st.s > 0
  · obtain ⟨hc, hpos⟩ := hbs
    subst hc
    have h1 := getsU1Body_backspace c st hpos
    rw [h1.2.1, h1.2.2.1, h1.2.2.2.2.2]
    exact ⟨hst2, by omega, fun _ => by omega⟩
  · have hbs1 : c ≠ B ∨ st.s = 0 := by
      by_contra hh
      push_neg at hh
      exact hbs ⟨hh.1, by omega⟩
    by_cases hlf : c = 0x0A
    · subst hlf
      rw [getsU1Body_line_feed B st (hbs1.imp Ne.symm id)]
      exact ⟨hst2, by simp only [LineState.store, LineState.put]; omega,
        fun _ => by simp only [LineState.store, LineState.put]; omega⟩
    · by_cases hcr : c = 0x0D
      · subst hcr
        rw [getsU1Body_carriage_return B st (hbs1.imp Ne.symm id)]
        exact ⟨hst2, by simp only [LineState.store, LineState.put]; omega,
          fun hf => by simp at hf⟩
      · by_cases h18 : c = 0x18
        · subst h18
          rw [getsU1Body_sentinel B st (hbs1.imp Ne.symm id)]
          exact ⟨hst2, by simp only [LineState.store]; push_cast; omega,
            fun hf => by simp at hf⟩
        · rw [getsU1Body_ordinary B c st h18 hlf hcr hbs1]
          exact ⟨hst2, by simp only [LineState.store, LineState.put]; push_cast; omega,
            fun _ => by simp only [LineState.store, LineState.put]; push_cast; omega⟩

theorem getsU1Loop_in_bounds (B : Nat) (cap : Int) (rx : List RxPort) (st : LineState) :
    InBounds cap st →
    (∀ i, i ∈ (getsU1Loop B rx st).stores → (i : Int) < cap) ∧
    ((getsU1Loop B rx st).s : Int) ≤ cap - 1 := by
  induction rx, st using getsU1Loop.induct B with
  | case1 rx st hgo ih =>
    intro h
    have hb := getsU1Body_in_bounds B (getU1 (rx.headD silent)).val cap
      { st with gets := st.gets + 1 } h
    rw [getsU1Loop_again B rx st hgo.1 hgo.2]
    exact ih ⟨hb.2.2 hgo.1, hgo.2, hb.1⟩
  | case2 rx st hstop =>
    intro h
    have hb := getsU1Body_in_bounds B (getU1 (rx.headD silent)).val cap
      { st with gets := st.gets + 1 } h
    rw [getsU1Loop_done B rx st hstop]
    exact ⟨hb.1, hb.2.1⟩

/-- With a capacity of 2 or more `getsU1` stays inside the caller's storage:
every index it writes is below the capacity, the final cursor is at most
capacity - 1, and the byte at the final cursor is the null byte. -/
theorem getsU1_in_bounds (B : Nat) (cap : Int) (hcap : 2 ≤ cap) (rx : List RxPort)
    (tx : TxPort) (buf : Nat → Nat) :
    (∀ i, i ∈ (getsU1 B rx tx buf cap).stores → (i : Int) < cap) ∧
    ((getsU1 B rx tx buf cap).s : Int) ≤ cap - 1 ∧
    (getsU1 B rx tx buf cap).buf (getsU1 B rx tx buf cap).s = 0 := by
  have h := getsU1Loop_in_bounds B cap rx
    { buf := buf, s := 0, len := cap, tx := tx, echo := [], stores := [], gets := 0 }
    ⟨by simp, by simp only; omega, by simp⟩
  refine ⟨?_, h.2, by simp [getsU1, LineState.store]⟩
  intro i hi
  simp only [getsU1, LineState.store] at hi
  rcases List.mem_append.mp hi with h1 | h1
  · exact h.1 i h1
  · rw [List.mem_singleton.mp h1]
    have := h.2
    omega

/-! ## The string writer -/

theorem putU1Wait_TXREG_aux (n : Nat) : ∀ (hw : TxPort) (t : Nat),
    maxWaitCounts + 1 - t = n → (putU1Wait hw t).2.TXREG = hw.TXREG := by
  induction n with
  | zero =>
    intro hw t hn
    rw [putU1Wait]
    by_cases h1 : hw.UTXBF hw.polls = true
    · have h2 : t + 1 > maxWaitCounts := by omega
      simp [h1, h2]
    · simp [h1]
  | succ n ih =>
    intro hw t hn
    rw [putU1Wait]
    by_cases h1 : hw.UTXBF hw.polls = true
    · by_cases h2 : t + 1 > maxWaitCounts
      · simp [h1, h2]
      · simp only [h1, if_true, h2, if_false]
        exact ih { hw with polls := hw.polls + 1 } (t + 1) (by omega)
    · simp [h1]

theorem putU1Wait_TXREG (hw : TxPort) (t : Nat) : (putU1Wait hw t).2.TXREG = hw.TXREG :=
  putU1Wait_TXREG_aux _ hw t rfl

/-- A call of `putU1` either returns its argument after one write of it, or
returns 0x18 after no write. -/
theorem putU1_cases (c : Nat) (hw : TxPort) :
    ((putU1 c hw).1 = c ∧ (putU1 c hw).2.TXREG = hw.TXREG ++ [c]) ∨
    ((putU1 c hw).1 = 0x18 ∧ (putU1 c hw).2.TXREG = hw.TXREG) := by
  have h := putU1Wait_TXREG hw 0
  unfold putU1
  rcases hres : putU1Wait hw 0 with ⟨b, hw1⟩
  rw [hres] at h
  cases b
  · left
    exact ⟨rfl, by simpa using h⟩
  · right
    exact ⟨rfl, by simpa using h⟩

/-- On a transmitter that is never full `putU1` takes the byte at the first
poll. -/
theorem putU1_ready (c : Nat) (hw : TxPort) (h : ∀ k, hw.UTXBF k = false) :
    putU1 c hw = (c, { hw with polls := hw.polls + 1, TXREG := hw.TXREG ++ [c] }) := by
  have hw1 := putU1Wait_ready 0 hw 0 (by simp) (by simp) (by simpa using h hw.polls)
  simp [putU1, hw1]

theorem putsU1Loop_after_sentinel (s : List Nat) (hw : TxPort) :
    putsU1Loop s 0x18 hw = ([], hw) := by
  cases s with
  | nil => rfl
  | cons c rest => simp [putsU1Loop]

theorem putsU1Loop_spec (s : List Nat) : ∀ (pr : Nat) (hw : TxPort), pr ≠ 0x18 →
    ((putsU1Loop s pr hw).1.map Prod.fst) <+: s.takeWhile (fun b => decide (b ≠ 0)) ∧
    (∀ p, p ∈ (putsU1Loop s pr hw).1.dropLast → p.2 ≠ 0x18) ∧
    ((putsU1Loop s pr hw).1.map Prod.fst = s.takeWhile (fun b => decide (b ≠ 0)) ∨
      ((putsU1Loop s pr hw).1.map Prod.snd).getLast? = some 0x18) ∧
    (∃ w, w <+: (putsU1Loop s pr hw).1.map Prod.fst ∧
      (putsU1Loop s pr hw).2.TXREG = hw.TXREG ++ w) ∧
    ((∀ p, p ∈ (putsU1Loop s pr hw).1 → p.2 ≠ 0x18) →
      (putsU1Loop s pr hw).1.map Prod.fst = s.takeWhile (fun b => decide (b ≠ 0)) ∧
      (putsU1Loop s pr hw).2.TXREG = hw.TXREG ++ s.takeWhile (fun b => decide (b ≠ 0))) := by
  induction s with
  | nil =>
    intro pr hw _
    simp [putsU1Loop]
  | cons c rest ih =>
    intro pr hw hpr
    by_cases hc : c = 0
    · subst hc
      simp [putsU1Loop]
    · have htw : (c :: rest).takeWhile (fun b => decide (b ≠ 0))
          = c :: rest.takeWhile (fun b => decide (b ≠ 0)) := by
        simp [List.takeWhile, hc]
      have hloop : putsU1Loop (c :: rest) pr hw
          = ((c, (putU1 c hw).1) :: (putsU1Loop rest (putU1 c hw).1 (putU1 c hw).2).1,
              (putsU1Loop rest (putU1 c hw).1 (putU1 c hw).2).2) := by
        simp [putsU1Loop, hc, hpr]
      rw [hloop, htw]
      by_cases hr : (putU1 c hw).1 = 0x18
      · rw [hr, putsU1Loop_after_sentinel]
        refine ⟨?_, ?_, ?_, ?_, ?_⟩
        · exact ⟨rest.takeWhile (fun b => decide (b ≠ 0)), rfl⟩
        · intro p hp
          simp at hp
        · right
          rfl
        · rcases putU1_cases c hw with h | h
          · exact ⟨[c], List.prefix_refl _, h.2⟩
          · exact ⟨[], List.nil_prefix, by simpa using h.2⟩
        · intro hall
          exact absurd rfl (hall (c, 0x18) (by simp))
      · have hcase : (putU1 c hw).1 = c ∧ (putU1 c hw).2.TXREG = hw.TXREG ++ [c] := by
          rcases putU1_cases c hw with h | h
          · exact h
          · exact absurd h.1 hr
        obtain ⟨i1, i2, i3, ⟨w, hw1, hw2⟩, i5⟩ := ih (putU1 c hw).1 (putU1 c hw).2 hr
        refine ⟨?_, ?_, ?_, ?_, ?_⟩
        · simp only [List.map_cons]
          exact (List.prefix_cons_inj c).mpr i1
        · intro p hp
          cases ht : (putsU1Loop rest (putU1 c hw).1 (putU1 c hw).2).1 with
          | nil =>
            rw [ht] at hp
            simp at hp
          | cons q qs =>
            rw [ht, List.dropLast_cons₂] at hp
            rcases List.mem_cons.mp hp with h | h
            · rw [h]
              exact hr
            · exact i2 p (by rw [ht]; exact h)
        · rcases i3 with h | h
          · left
            simp only [List.map_cons, h]
          · right
            simp only [List.map_cons]
            cases hm : List.map Prod.snd (putsU1Loop rest (putU1 c hw).1 (putU1 c hw).2).1 with
            | nil =>
              rw [hm] at h
              simp at h
            | cons q qs =>
              rw [hm] at h
              rw [List.getLast?_cons_cons]
              exact h
        · refine ⟨c :: w, ?_, ?_⟩
          · simp only [List.map_cons]
            exact (List.prefix_cons_inj c).mpr hw1
          · rw [hw2, hcase.2]
            simp
        · intro hall
          have := i5 (fun p hp => hall p (List.mem_cons_of_mem _ hp))
          refine ⟨?_, ?_⟩
          · simp only [List.map_cons, this.1]
          · rw [this.2, hcase.2]
            simp

theorem putsU1Loop_cons (c : Nat) (rest : List Nat) (pr : Nat) (hw : TxPort) :
    putsU1Loop (c :: rest) pr hw
      = if c ≠ 0 ∧ pr ≠ 0x18 then
          ((c, (putU1 c hw).1) :: (putsU1Loop rest (putU1 c hw).1 (putU1 c hw).2).1,
            (putsU1Loop rest (putU1 c hw).1 (putU1 c hw).2).2)
        else ([], hw) := rfl

theorem putsU1Loop_ready_prefix (pre : List Nat) : ∀ (post : List Nat) (pr : Nat)
    (hw : TxPort), pr ≠ 0x18 → (∀ k, hw.UTXBF k = false) →
    (∀ b, b ∈ pre → b ≠ 0 ∧ b ≠ 0x18) →
    (putsU1Loop (pre ++ 0x18 :: post) pr hw).1 = (pre ++ [0x18]).map (fun b => (b, b)) ∧
    (putsU1Loop (pre ++ 0x18 :: post) pr hw).2.TXREG = hw.TXREG ++ pre ++ [0x18] := by
  induction pre with
  | nil =>
    intro post pr hw hpr hready _
    simp [putsU1Loop, hpr, putU1_ready 0x18 hw hready, putsU1Loop_after_sentinel]
  | cons c pre ih =>
    intro post pr hw hpr hready hpre
    have hc := hpre c (List.mem_cons_self c pre)
    have hstep := putU1_ready c hw hready
    have hnext := ih post c { hw with polls := hw.polls + 1, TXREG := hw.TXREG ++ [c] }
      hc.2 hready (fun b hb => hpre b (List.mem_cons_of_mem c hb))
    rw [List.cons_append, putsU1Loop_cons, if_pos ⟨hc.1, hpr⟩, hstep]
    simp only []
    rw [hnext.1, hnext.2]
    simp

/-! ## The unbounded wait of channel 2 -/

theorem putU2Wait_ready (k : Nat) : ∀ (fuel : Nat) (hw : TxPort), k < fuel →
    (∀ j, j < k → hw.UTXBF (hw.polls + j) = true) →
    hw.UTXBF (hw.polls + k) = false →
    putU2Wait fuel hw = (true, { hw with polls := hw.polls + k + 1 }) := by
  induction k with
  | zero =>
    intro fuel hw hfuel _ hfree
    obtain ⟨f, rfl⟩ : ∃ f, fuel = f + 1 := ⟨fuel - 1, by omega⟩
    simp only [Nat.add_zero] at hfree
    simp [putU2Wait, hfree]
  | succ k ih =>
    intro fuel hw hfuel hfull hfree
    obtain ⟨f, rfl⟩ : ∃ f, fuel = f + 1 := ⟨fuel - 1, by omega⟩
    have h0 : hw.UTXBF hw.polls = true := by simpa using hfull 0 (Nat.succ_pos k)
    simp only [putU2Wait, h0, if_true]
    rw [ih f { hw with polls := hw.polls + 1 } (by omega)]
    · simp only [Nat.add_assoc, Nat.add_comm 1 k]
    · intro j hj
      have := hfull (j + 1) (by omega)
      simpa [Nat.add_assoc, Nat.add_comm 1 j] using this
    · simpa [Nat.add_assoc, Nat.add_comm 1 k] using hfree

theorem putU2Wait_full (fuel : Nat) : ∀ (hw : TxPort),
    (∀ j, hw.UTXBF (hw.polls + j) = true) →
    putU2Wait fuel hw = (false, { hw with polls := hw.polls + fuel }) := by
  induction fuel with
  | zero => intro hw _; rfl
  | succ f ih =>
    intro hw hfull
    have h0 : hw.UTXBF hw.polls = true := by simpa using hfull 0
    simp only [putU2Wait, h0, if_true]
    rw [ih { hw with polls := hw.polls + 1 }]
    · simp only [Nat.add_assoc, Nat.add_comm 1 f]
    · intro j
      have := hfull (j + 1)
      simpa [Nat.add_assoc, Nat.add_comm 1 j] using this

/-! ## The line reader and the transmitter -/

theorem getsU1Loop_cons (B : Nat) (e : RxPort) (rest : List RxPort) (st : LineState) :
    getsU1Loop B (e :: rest) st
      = if (getsU1Pass B (e :: rest) st).1 = Flow.test ∧ (getsU1Pass B (e :: rest) st).2.len > 1
        then getsU1Loop B rest (getsU1Pass B (e :: rest) st).2
        else (getsU1Pass B (e :: rest) st).2 := by
  rw [getsU1Loop]
  rfl

theorem getsU1Body_tx (B c : Nat) (st : LineState) (tx1 : TxPort) :
    ∃ tx2, getsU1Body B c { st with tx := tx1 }
      = ((getsU1Body B c st).1, { (getsU1Body B c st).2 with tx := tx2 }) := by
  simp only [getsU1Body, LineState.store, LineState.put, Function.update_same]
  split_ifs <;> exact ⟨_, rfl⟩

theorem getsU1Body_gets (B c : Nat) (st : LineState) :
    (getsU1Body B c st).2.gets = st.gets := by
  simp only [getsU1Body, LineState.store, LineState.put, Function.update_same]
  split_ifs <;> rfl

theorem getsU1Pass_gets (B : Nat) (rx : List RxPort) (st : LineState) :
    (getsU1Pass B rx st).2.gets = st.gets + 1 :=
  getsU1Body_gets B _ _

theorem getsU1Body_sameLine (B c : Nat) (st1 st2 : LineState) (h : SameLine st1 st2) :
    (getsU1Body B c st1).1 = (getsU1Body B c st2).1 ∧
    SameLine (getsU1Body B c st1).2 (getsU1Body B c st2).2 := by
  have h2 : st2 = { st1 with tx := st2.tx } := by
    obtain ⟨hb, hs, hl, he, hst, hg⟩ := h
    cases st1
    cases st2
    simp only at hb hs hl he hst hg
    subst hb hs hl he hst hg
    rfl
  obtain ⟨tx2, htx⟩ := getsU1Body_tx B c st1 st2.tx
  rw [h2, htx]
  exact ⟨rfl, rfl, rfl, rfl, rfl, rfl, rfl⟩

theorem rxByte_headD_of_map_eq (rx1 rx2 : List RxPort)
    (h : rx1.map rxByte = rx2.map rxByte) :
    rxByte (rx1.headD silent) = rxByte (rx2.headD silent) ∧
    rx1.tail.map rxByte = rx2.tail.map rxByte := by
  cases rx1 with
  | nil =>
    cases rx2 with
    | nil => exact ⟨rfl, rfl⟩
    | cons e2 r2 => simp at h
  | cons e1 r1 =>
    cases rx2 with
    | nil => simp at h
    | cons e2 r2 =>
      simp only [List.map_cons, List.cons.injEq] at h
      exact ⟨h.1, h.2⟩

theorem getsU1Pass_sameLine (B : Nat) (rx1 rx2 : List RxPort) (st1 st2 : LineState)
    (hrx : rx1.map rxByte = rx2.map rxByte) (h : SameLine st1 st2) :
    (getsU1Pass B rx1 st1).1 = (getsU1Pass B rx2 st2).1 ∧
    SameLine (getsU1Pass B rx1 st1).2 (getsU1Pass B rx2 st2).2 := by
  have hb := (rxByte_headD_of_map_eq rx1 rx2 hrx).1
  have hp1 : getsU1Pass B rx1 st1
      = getsU1Body B (rxByte (rx1.headD silent)) { st1 with gets := st1.gets + 1 } := rfl
  have hp2 : getsU1Pass B rx2 st2
      = getsU1Body B (rxByte (rx2.headD silent)) { st2 with gets := st2.gets + 1 } := rfl
  rw [hp1, hp2, hb]
  exact getsU1Body_sameLine B _ _ _
    ⟨h.1, h.2.1, h.2.2.1, h.2.2.2.1, h.2.2.2.2.1, congrArg (· + 1) h.2.2.2.2.2⟩

/-- Two runs of the loop on the same `getU1` results, whatever their
transmitters do, stay the same in everything but the transmitter. -/
theorem getsU1Loop_sameLine (B : Nat) (rx1 : List RxPort) (st1 : LineState) :
    ∀ (rx2 : List RxPort) (st2 : LineState), rx1.map rxByte = rx2.map rxByte →
      SameLine st1 st2 → SameLine (getsU1Loop B rx1 st1) (getsU1Loop B rx2 st2) := by
  induction rx1, st1 using getsU1Loop.induct B with
  | case1 rx1 st1 hgo ih =>
    intro rx2 st2 hrx h
    have hp := getsU1Pass_sameLine B rx1 rx2 st1 st2 hrx h
    have hgo2 : (getsU1Pass B rx2 st2).1 = Flow.test ∧ (getsU1Pass B rx2 st2).2.len > 1 := by
      rw [← hp.1, ← hp.2.2.2.1]
      exact hgo
    rw [getsU1Loop_again B rx1 st1 hgo.1 hgo.2, getsU1Loop_again B rx2 st2 hgo2.1 hgo2.2]
    exact ih _ _ (rxByte_headD_of_map_eq rx1 rx2 hrx).2 hp.2
  | case2 rx1 st1 hstop =>
    intro rx2 st2 hrx h
    have hp := getsU1Pass_sameLine B rx1 rx2 st1 st2 hrx h
    have hstop2 :
        ¬ ((getsU1Pass B rx2 st2).1 = Flow.test ∧ (getsU1Pass B rx2 st2).2.len > 1) := by
      rw [← hp.1, ← hp.2.2.2.1]
      exact hstop
    rw [getsU1Loop_done B rx1 st1 hstop, getsU1Loop_done B rx2 st2 hstop2]
    exact hp.2

/-- The number of `getU1` calls of the loop when BACKSPACE is not 0x18: one
at least, one more than the list is long at most, and none after a call that
returned a carriage return (BACKSPACE not being one) or 0x18. -/
theorem getsU1Loop_gets (B : Nat) (h18 : B ≠ 0x18) (rx : List RxPort) :
    ∀ st : LineState,
      st.gets < (getsU1Loop B rx st).gets ∧
      (getsU1Loop B rx st).gets ≤ st.gets + rx.length + 1 ∧
      (B ≠ 0x0D → ∀ j (hj : j < rx.length), st.gets + j < (getsU1Loop B rx st).gets →
        (rxByte rx[j] = 0x0D ∨ rxByte rx[j] = 0x18) →
        (getsU1Loop B rx st).gets = st.gets + j + 1) := by
  induction rx with
  | nil =>
    intro st
    rw [getsU1Loop_silent B st (Or.inl h18)]
    refine ⟨by simp [LineState.store], by simp [LineState.store], ?_⟩
    intro _ j hj
    simp at hj
  | cons e rest ih =>
    intro st
    have hg := getsU1Pass_gets B (e :: rest) st
    rw [getsU1Loop_cons]
    by_cases hgo : (getsU1Pass B (e :: rest) st).1 = Flow.test ∧
        (getsU1Pass B (e :: rest) st).2.len > 1
    · simp only [hgo, and_self, if_true]
      obtain ⟨i1, i2, i3⟩ := ih (getsU1Pass B (e :: rest) st).2
      rw [hg] at i1 i2 i3
      refine ⟨by omega, by simp only [List.length_cons]; omega, ?_⟩
      intro hcr j hj hlt hbyte
      cases j with
      | zero =>
        exfalso
        have hflow := hgo.1
        rw [getsU1Pass_cons] at hflow
        simp only [List.getElem_cons_zero] at hbyte
        rcases hbyte with hb | hb
        · rw [hb, getsU1Body_carriage_return B _ (Or.inl hcr)] at hflow
          simp at hflow
        · rw [hb, getsU1Body_sentinel B _ (Or.inl h18)] at hflow
          simp at hflow
      | succ j =>
        simp only [List.length_cons] at hj
        have := i3 hcr j (by omega) (by omega) (by simpa using hbyte)
        omega
    · simp only [hgo, if_false]
      rw [hg]
      refine ⟨by omega, by simp only [List.length_cons]; omega, ?_⟩
      intro _ j _ hlt _
      omega

/-! ## The shape of the line and the count of bytes left -/

theorem update_below (buf : Nat → Nat) (k c i : Nat) (h : i < k) :
    Function.update buf k c i = buf i :=
  Function.update_noteq (by omega) c buf

theorem returned_of_lineShape (B : Nat) (cap : Int) (st : LineState) (h : LineShape B st)
    (hsum : (st.s : Int) + st.len = cap) : Returned B cap st :=
  ⟨fun i hi => ⟨(h i hi).1, (h i hi).2.1, fun h18 => absurd h18 (h i hi).2.2.1,
      (h i hi).2.2.2⟩,
    Or.inl ⟨hsum, fun i hi => (h i hi).2.2.1⟩⟩

theorem getsU1Body_shape (B c : Nat) (cap : Int) (st : LineState) (h : LineShape B st)
    (hsum : (st.s : Int) + st.len = cap) :
    Returned B cap (getsU1Body B c st).2 ∧
    ((getsU1Body B c st).1 = Flow.test →
      LineShape B (getsU1Body B c st).2 ∧
      ((getsU1Body B c st).2.s : Int) + (getsU1Body B c st).2.len = cap) := by
  have hkeep : ∀ v, LineShape B { st with buf := Function.update st.buf st.s v } := by
    intro v i hi
    simp only at hi ⊢
    rw [update_below st.buf st.s v i hi]
    exact h i hi
  by_cases hbs : c = B ∧ st.s > 0
  · obtain ⟨hc, hpos⟩ := hbs
    subst hc
    have h1 := getsU1Body_backspace c st hpos
    have hshape : LineShape c (getsU1Body c c st).2 := by
      intro i hi
      rw [h1.2.1] at hi
      rw [h1.2.2.2.1, update_below st.buf st.s c i (by omega)]
      exact h i (by omega)
    have hs2 : ((getsU1Body c c st).2.s : Int) + (getsU1Body c c st).2.len = cap := by
      rw [h1.2.1, h1.2.2.1]
      omega
    exact ⟨returned_of_lineShape c cap _ hshape hs2, fun _ => ⟨hshape, hs2⟩⟩
  · have hbs1 : c ≠ B ∨ st.s = 0 := by
      by_contra hh
      push_neg at hh
      exact hbs ⟨hh.1, by omega⟩
    by_cases hlf : c = 0x0A
    · subst hlf
      rw [getsU1Body_line_feed B st (hbs1.imp Ne.symm id)]
      have hshape : LineShape B ((st.store 0x0A).put 0x0A) := hkeep 0x0A
      exact ⟨returned_of_lineShape B cap _ hshape hsum, fun _ => ⟨hshape, hsum⟩⟩
    · by_cases hcr : c = 0x0D
      · subst hcr
        rw [getsU1Body_carriage_return B st (hbs1.imp Ne.symm id)]
        have hshape : LineShape B ((st.store 0x0D).put 0x0D) := hkeep 0x0D
        exact ⟨returned_of_lineShape B cap _ hshape hsum, fun hf => by simp at hf⟩
      · by_cases h18 : c = 0x18
        · subst h18
          rw [getsU1Body_sentinel B st (hbs1.imp Ne.symm id)]
          refine ⟨⟨?_, Or.inr ⟨?_, ?_, ?_⟩⟩, fun hf => by simp at hf⟩
          · intro i hi
            simp only [LineState.store] at hi ⊢
            by_cases hi2 : i = st.s
            · subst hi2
              simp only [Function.update_same]
              refine ⟨by decide, by decide, by simp, ?_⟩
              intro hB
              rcases hbs1 with hne | hz
              · exact absurd hB hne
              · exact hz
            · rw [update_below st.buf st.s 0x18 i (by omega)]
              have := h i (by omega)
              exact ⟨this.1, this.2.1, fun h18 => absurd h18 this.2.2.1, this.2.2.2⟩
          · simp only [LineState.store]
            push_cast
            omega
          · simp only [LineState.store]
            omega
          · simp [LineState.store]
        · rw [getsU1Body_ordinary B c st h18 hlf hcr hbs1]
          have hshape : LineShape B
              { (st.store c).put c with s := st.s + 1, len := st.len - 1 } := by
            intro i hi
            simp only [LineState.store, LineState.put] at hi ⊢
            by_cases hi2 : i = st.s
            · subst hi2
              simp only [Function.update_same]
              refine ⟨hcr, hlf, h18, ?_⟩
              intro hB
              rcases hbs1 with hne | hz
              · exact absurd hB hne
              · exact hz
            · rw [update_below st.buf st.s c i (by omega)]
              exact h i (by omega)
          have hs2 : (({ (st.store c).put c with s := st.s + 1, len := st.len - 1 } :
              LineState).s : Int)
              + ({ (st.store c).put c with s := st.s + 1, len := st.len - 1 } :
              LineState).len = cap := by
            simp only
            push_cast
            omega
          exact ⟨returned_of_lineShape B cap _ hshape hs2, fun _ => ⟨hshape, hs2⟩⟩

theorem getsU1Loop_returned (B : Nat) (cap : Int) (rx : List RxPort) (st : LineState) :
    LineShape B st → (st.s : Int) + st.len = cap → Returned B cap (getsU1Loop B rx st) := by
  induction rx, st using getsU1Loop.induct B with
  | case1 rx st hgo ih =>
    intro h hsum
    have hb := getsU1Body_shape B (getU1 (rx.headD silent)).val cap
      { st with gets := st.gets + 1 } h hsum
    rw [getsU1Loop_again B rx st hgo.1 hgo.2]
    exact ih (hb.2 hgo.1).1 (hb.2 hgo.1).2
  | case2 rx st hstop =>
    intro h hsum
    have hb := getsU1Body_shape B (getU1 (rx.headD silent)).val cap
      { st with gets := st.gets + 1 } h hsum
    rw [getsU1Loop_done B rx st hstop]
    exact hb.1

/-- The state `getsU1` returns, null terminator written, for every BACKSPACE
code, capacity and received stream. -/
theorem getsU1_returned (B : Nat) (cap : Int) (rx : List RxPort) (tx : TxPort)
    (buf : Nat → Nat) : Returned B cap (getsU1 B rx tx buf cap) := by
  have h := getsU1Loop_returned B cap rx
    { buf := buf, s := 0, len := cap, tx := tx, echo := [], stores := [], gets := 0 }
    (fun i hi => absurd hi (Nat.not_lt_zero i)) (by simp)
  obtain ⟨h1, h2⟩ := h
  refine ⟨?_, ?_⟩
  · intro i hi
    simp only [getsU1, LineState.store] at hi ⊢
    rw [update_below _ _ 0 i hi]
    exact h1 i hi
  · rcases h2 with ⟨hs, hno⟩ | ⟨hs, hpos, hlast⟩
    · left
      refine ⟨hs, ?_⟩
      intro i hi
      simp only [getsU1, LineState.store] at hi ⊢
      rw [update_below _ _ 0 i hi]
      exact hno i hi
    · right
      refine ⟨hs, hpos, ?_⟩
      simp only [getsU1, LineState.store] at hpos ⊢
      rw [update_below _ _ 0 _ (by omega)]
      exact hlast

theorem getsU1Body_sum (B c : Nat) (st : LineState)
    (h : (getsU1Body B c st).1 = Flow.test) :
    ((getsU1Body B c st).2.s : Int) + (getsU1Body B c st).2.len = (st.s : Int) + st.len := by
  by_cases hbs : c = B ∧ st.s > 0
  · obtain ⟨hc, hpos⟩ := hbs
    subst hc
    have h1 := getsU1Body_backspace c st hpos
    rw [h1.2.1, h1.2.2.1]
    omega
  · have hbs1 : c ≠ B ∨ st.s = 0 := by
      by_contra hh
      push_neg at hh
      exact hbs ⟨hh.1, by omega⟩
    by_cases hlf : c = 0x0A
    · subst hlf
      rw [getsU1Body_line_feed B st (hbs1.imp Ne.symm id)]
      rfl
    · by_cases hcr : c = 0x0D
      · subst hcr
        rw [getsU1Body_carriage_return B st (hbs1.imp Ne.symm id)] at h
        simp at h
      · by_cases h18 : c = 0x18
        · subst h18
          rw [getsU1Body_sentinel B st (hbs1.imp Ne.symm id)] at h
          simp at h
        · rw [getsU1Body_ordinary B c st h18 hlf hcr hbs1]
          simp only [LineState.store, LineState.put]
          push_cast
          omega

/-! ## Line feeds -/

theorem getsU1Body_agreeAll (B c : Nat) (st1 st2 : LineState) (h : AgreeOff st1 st2) :
    (getsU1Body B c st1).1 = (getsU1Body B c st2).1 ∧
    AgreeAll (getsU1Body B c st1).2 (getsU1Body B c st2).2 := by
  obtain ⟨hs, hl, hb⟩ := h
  have hupd : Function.update st1.buf st1.s c = Function.update st2.buf st2.s c := by
    funext i
    rw [← hs]
    by_cases hi2 : i = st1.s
    · subst hi2; simp
    · rw [Function.update_noteq hi2, Function.update_noteq hi2]
      exact hb i hi2
  by_cases hbs : c = B ∧ st1.s > 0
  · obtain ⟨hc, hpos⟩ := hbs
    subst hc
    have h1 := getsU1Body_backspace c st1 hpos
    have h2 := getsU1Body_backspace c st2 (by omega)
    refine ⟨by rw [h1.1, h2.1], ?_, ?_, ?_⟩
    · rw [h1.2.1, h2.2.1, hs]
    · rw [h1.2.2.1, h2.2.2.1, hl]
    · rw [h1.2.2.2.1, h2.2.2.2.1]
      exact hupd
  · have hbs1 : c ≠ B ∨ st1.s = 0 := by
      by_contra hh
      push_neg at hh
      exact hbs ⟨hh.1, by omega⟩
    have hbs2 : c ≠ B ∨ st2.s = 0 := by rw [← hs]; exact hbs1
    by_cases hlf : c = 0x0A
    · subst hlf
      rw [getsU1Body_line_feed B st1 (hbs1.imp Ne.symm id),
        getsU1Body_line_feed B st2 (hbs2.imp Ne.symm id)]
      exact ⟨rfl, hs, hl, hupd⟩
    · by_cases hcr : c = 0x0D
      · subst hcr
        rw [getsU1Body_carriage_return B st1 (hbs1.imp Ne.symm id),
          getsU1Body_carriage_return B st2 (hbs2.imp Ne.symm id)]
        exact ⟨rfl, hs, hl, hupd⟩
      · by_cases h18 : c = 0x18
        · subst h18
          rw [getsU1Body_sentinel B st1 (hbs1.imp Ne.symm id),
            getsU1Body_sentinel B st2 (hbs2.imp Ne.symm id)]
          exact ⟨rfl, congrArg (· + 1) hs, hl, hupd⟩
        · rw [getsU1Body_ordinary B c st1 h18 hlf hcr hbs1,
            getsU1Body_ordinary B c st2 h18 hlf hcr hbs2]
          exact ⟨rfl, congrArg (· + 1) hs, congrArg (· - 1) hl, hupd⟩

theorem AgreeAll.off {st1 st2 : LineState} (h : AgreeAll st1 st2) : AgreeOff st1 st2 :=
  ⟨h.1, h.2.1, fun i _ => congrFun h.2.2 i⟩

theorem getsU1Pass_agreeAll (B : Nat) (rx1 rx2 : List RxPort) (st1 st2 : LineState)
    (hb : rxByte (rx1.headD silent) = rxByte (rx2.headD silent)) (h : AgreeOff st1 st2) :
    (getsU1Pass B rx1 st1).1 = (getsU1Pass B rx2 st2).1 ∧
    AgreeAll (getsU1Pass B rx1 st1).2 (getsU1Pass B rx2 st2).2 := by
  have hp1 : getsU1Pass B rx1 st1
      = getsU1Body B (rxByte (rx1.headD silent)) { st1 with gets := st1.gets + 1 } := rfl
  have hp2 : getsU1Pass B rx2 st2
      = getsU1Body B (rxByte (rx2.headD silent)) { st2 with gets := st2.gets + 1 } := rfl
  rw [hp1, hp2, hb]
  exact getsU1Body_agreeAll B _ _ _ ⟨h.1, h.2.1, h.2.2⟩

theorem getsU1Pass_line_feed (B : Nat) (hB : B ≠ 0x0A) (e : RxPort) (rest : List RxPort)
    (st : LineState) (he : rxByte e = 0x0A) :
    getsU1Pass B (e :: rest) st
      = (Flow.test, ({ st with gets := st.gets + 1 }.store 0x0A).put 0x0A) := by
  rw [getsU1Pass_cons, he]
  exact getsU1Body_line_feed B _ (Or.inl hB)

/-- The loop on a received stream and on the same stream with the line feeds
taken out: same cursor, same `len`, same buffer on return.  The byte a line
feed leaves at the cursor is overwritten by the store of the next pass. -/
theorem getsU1Loop_drop_line_feeds (B : Nat) (hB : B ≠ 0x0A) (rx : List RxPort)
    (st1 : LineState) :
    ∀ st2, AgreeOff st1 st2 → st1.len > 1 →
      AgreeAll (getsU1Loop B rx st1)
        (getsU1Loop B (rx.filter (fun e => decide (rxByte e ≠ 0x0A))) st2) := by
  induction rx, st1 using getsU1Loop.induct B with
  | case1 rx st1 hgo ih =>
    intro st2 h hlen
    cases rx with
    | nil =>
      have hp := getsU1Pass_agreeAll B [] [] st1 st2 rfl h
      have hgo2 : (getsU1Pass B [] st2).1 = Flow.test ∧ (getsU1Pass B [] st2).2.len > 1 := by
        rw [← hp.1, ← hp.2.2.1]
        exact hgo
      rw [getsU1Loop_again B [] st1 hgo.1 hgo.2]
      simp only [List.filter_nil]
      rw [getsU1Loop_again B [] st2 hgo2.1 hgo2.2]
      exact ih _ hp.2.off hgo.2
    | cons e rest =>
      rw [getsU1Loop_again B (e :: rest) st1 hgo.1 hgo.2]
      simp only [List.tail_cons] at ih ⊢
      by_cases hlf : rxByte e = 0x0A
      · have hf : (e :: rest).filter (fun e => decide (rxByte e ≠ 0x0A))
            = rest.filter (fun e => decide (rxByte e ≠ 0x0A)) := by
          simp [List.filter, hlf]
        rw [hf]
        apply ih st2 _ hgo.2
        rw [getsU1Pass_line_feed B hB e rest st1 hlf]
        refine ⟨h.1, h.2.1, ?_⟩
        intro i hi
        simp only [LineState.store, LineState.put] at hi ⊢
        rw [Function.update_noteq hi]
        exact h.2.2 i hi
      · have hf : (e :: rest).filter (fun e => decide (rxByte e ≠ 0x0A))
            = e :: rest.filter (fun e => decide (rxByte e ≠ 0x0A)) := by
          simp [List.filter, hlf]
        rw [hf]
        have hp := getsU1Pass_agreeAll B (e :: rest)
          (e :: rest.filter (fun e => decide (rxByte e ≠ 0x0A))) st1 st2 rfl h
        have hgo2 :
            (getsU1Pass B (e :: rest.filter (fun e => decide (rxByte e ≠ 0x0A))) st2).1
              = Flow.test ∧
            (getsU1Pass B (e :: rest.filter (fun e => decide (rxByte e ≠ 0x0A))) st2).2.len
              > 1 := by
          rw [← hp.1, ← hp.2.2.1]
          exact hgo
        rw [getsU1Loop_again B _ st2 hgo2.1 hgo2.2]
        exact ih _ hp.2.off hgo.2
  | case2 rx st1 hstop =>
    intro st2 h hlen
    cases rx with
    | nil =>
      have hp := getsU1Pass_agreeAll B [] [] st1 st2 rfl h
      have hstop2 :
          ¬ ((getsU1Pass B [] st2).1 = Flow.test ∧ (getsU1Pass B [] st2).2.len > 1) := by
        rw [← hp.1, ← hp.2.2.1]
        exact hstop
      rw [getsU1Loop_done B [] st1 hstop]
      simp only [List.filter_nil]
      rw [getsU1Loop_done B [] st2 hstop2]
      exact hp.2
    | cons e rest =>
      by_cases hlf : rxByte e = 0x0A
      · exfalso
        apply hstop
        rw [getsU1Pass_line_feed B hB e rest st1 hlf]
        exact ⟨rfl, hlen⟩
      · have hf : (e :: rest).filter (fun e => decide (rxByte e ≠ 0x0A))
            = e :: rest.filter (fun e => decide (rxByte e ≠ 0x0A)) := by
          simp [List.filter, hlf]
        rw [hf]
        have hp := getsU1Pass_agreeAll B (e :: rest)
          (e :: rest.filter (fun e => decide (rxByte e ≠ 0x0A))) st1 st2 rfl h
        have hstop2 :
            ¬ ((getsU1Pass B (e :: rest.filter (fun e => decide (rxByte e ≠ 0x0A))) st2).1
                = Flow.test ∧
              (getsU1Pass B (e :: rest.filter (fun e => decide (rxByte e ≠ 0x0A))) st2).2.len
                > 1) := by
          rw [← hp.1, ← hp.2.2.1]
          exact hstop
        rw [getsU1Loop_done B (e :: rest) st1 hstop, getsU1Loop_done B _ st2 hstop2]
        exact hp.2

/-! ## The echo -/

theorem getsU1Body_echo (B c : Nat) (h18 : B ≠ 0x18) (st : LineState) :
    (getsU1Body B c st).2.echo = st.echo ++ echoOf B (c, st.s) := by
  simp only [getsU1Body, echoOf, LineState.store, LineState.put, Function.update_same]
  split_ifs <;> simp_all

theorem Wired.put {T : List Nat} {st : LineState} (h : Wired T st) (v : Nat) :
    Wired T (st.put v) := by
  obtain ⟨hr, ht⟩ := h
  simp only [Wired, LineState.put, putU1_ready v st.tx hr]
  exact ⟨hr, by rw [ht]; simp⟩

theorem Wired.of_eq {T : List Nat} {st st2 : LineState} (h : Wired T st)
    (htx : st2.tx = st.tx) (hecho : st2.echo = st.echo) : Wired T st2 := by
  unfold Wired
  rw [htx, hecho]
  exact h

theorem getsU1Body_wired (B c : Nat) (T : List Nat) (st : LineState) (h : Wired T st) :
    Wired T (getsU1Body B c st).2 := by
  have hstore : Wired T (st.store c) := h.of_eq rfl rfl
  by_cases hbs : c = B ∧ st.s > 0
  · obtain ⟨hc, hpos⟩ := hbs
    subst hc
    by_cases h18 : c = 0x18
    · have hb : getsU1Body c c st
          = (Flow.test, { ((st.store c).put 0x20).put c with
              len := st.len + 1, s := st.s - 1 }) := by
        simp [getsU1Body, LineState.store, LineState.put, h18, hpos]
      rw [hb]
      exact ((hstore.put 0x20).put c).of_eq rfl rfl
    · have hb : getsU1Body c c st
          = (Flow.test, { (((st.store c).put c).put 0x20).put c with
              len := st.len + 1, s := st.s - 1 }) := by
        simp [getsU1Body, LineState.store, LineState.put, h18, hpos]
      rw [hb]
      exact (((hstore.put c).put 0x20).put c).of_eq rfl rfl
  · have hbs1 : c ≠ B ∨ st.s = 0 := by
      by_contra hh
      push_neg at hh
      exact hbs ⟨hh.1, by omega⟩
    by_cases hlf : c = 0x0A
    · subst hlf
      rw [getsU1Body_line_feed B st (hbs1.imp Ne.symm id)]
      exact hstore.put _
    · by_cases hcr : c = 0x0D
      · subst hcr
        rw [getsU1Body_carriage_return B st (hbs1.imp Ne.symm id)]
        exact hstore.put _
      · by_cases h18 : c = 0x18
        · subst h18
          rw [getsU1Body_sentinel B st (hbs1.imp Ne.symm id)]
          exact hstore.of_eq rfl rfl
        · rw [getsU1Body_ordinary B c st h18 hlf hcr hbs1]
          exact (hstore.put c).of_eq rfl rfl

theorem getsU1Reads_again (B : Nat) (rx : List RxPort) (st : LineState)
    (h1 : (getsU1Pass B rx st).1 = Flow.test) (h2 : (getsU1Pass B rx st).2.len > 1) :
    getsU1Reads B rx st
      = (rxByte (rx.headD silent), st.s) :: getsU1Reads B rx.tail (getsU1Pass B rx st).2 := by
  rw [getsU1Reads]
  simp [h1, h2]

theorem getsU1Reads_done (B : Nat) (rx : List RxPort) (st : LineState)
    (h : ¬ ((getsU1Pass B rx st).1 = Flow.test ∧ (getsU1Pass B rx st).2.len > 1)) :
    getsU1Reads B rx st = [(rxByte (rx.headD silent), st.s)] := by
  rw [getsU1Reads]
  simp only [h, if_false]

theorem getsU1Pass_echo (B : Nat) (h18 : B ≠ 0x18) (rx : List RxPort) (st : LineState) :
    (getsU1Pass B rx st).2.echo = st.echo ++ echoOf B (rxByte (rx.headD silent), st.s) :=
  getsU1Body_echo B _ h18 { st with gets := st.gets + 1 }

theorem getsU1Loop_echo (B : Nat) (h18 : B ≠ 0x18) (rx : List RxPort) (st : LineState) :
    (getsU1Loop B rx st).echo
      = st.echo ++ ((getsU1Reads B rx st).map (echoOf B)).flatten := by
  induction rx, st using getsU1Loop.induct B with
  | case1 rx st hgo ih =>
    rw [getsU1Loop_again B rx st hgo.1 hgo.2, getsU1Reads_again B rx st hgo.1 hgo.2, ih,
      getsU1Pass_echo B h18 rx st]
    simp
  | case2 rx st hstop =>
    rw [getsU1Loop_done B rx st hstop, getsU1Reads_done B rx st hstop,
      getsU1Pass_echo B h18 rx st]
    simp

theorem getsU1Loop_wired (B : Nat) (T : List Nat) (rx : List RxPort) (st : LineState) :
    Wired T st → Wired T (getsU1Loop B rx st) := by
  induction rx, st using getsU1Loop.induct B with
  | case1 rx st hgo ih =>
    intro h
    rw [getsU1Loop_again B rx st hgo.1 hgo.2]
    exact ih (getsU1Body_wired B _ T _ (h.of_eq rfl rfl))
  | case2 rx st hstop =>
    intro h
    rw [getsU1Loop_done B rx st hstop]
    exact getsU1Body_wired B _ T _ (h.of_eq rfl rfl)

theorem getsU1Reads_length (B : Nat) (rx : List RxPort) (st : LineState) :
    st.gets + (getsU1Reads B rx st).length = (getsU1Loop B rx st).gets := by
  induction rx, st using getsU1Loop.induct B with
  | case1 rx st hgo ih =>
    rw [getsU1Loop_again B rx st hgo.1 hgo.2, getsU1Reads_again B rx st hgo.1 hgo.2, ← ih,
      getsU1Pass_gets]
    simp only [List.length_cons]
    omega
  | case2 rx st hstop =>
    rw [getsU1Loop_done B rx st hstop, getsU1Reads_done B rx st hstop, getsU1Pass_gets]
    rfl

theorem getsU1Reads_bytes (B : Nat) (h18 : B ≠ 0x18) (rx : List RxPort) :
    ∀ st : LineState,
      (getsU1Reads B rx st).map Prod.fst <+: rx.map rxByte ++ [0x18] := by
  induction rx with
  | nil =>
    intro st
    have hp : getsU1Pass B [] st
        = (Flow.leave, { { st with gets := st.gets + 1 }.store 0x18 with s := st.s + 1 }) := by
      rw [getsU1Pass_nil]
      exact getsU1Body_sentinel B _ (Or.inl h18)
    have hstop : ¬ ((getsU1Pass B [] st).1 = Flow.test ∧ (getsU1Pass B [] st).2.len > 1) := by
      rw [hp]
      intro hh
      exact Flow.noConfusion hh.1
    have hs : rxByte silent = 0x18 := rxByte_silent
    rw [getsU1Reads_done B [] st hstop]
    simp only [List.headD_nil, List.map_cons, List.map_nil, List.nil_append, hs]
    exact List.prefix_refl _
  | cons e rest ih =>
    intro st
    by_cases hgo : (getsU1Pass B (e :: rest) st).1 = Flow.test ∧
        (getsU1Pass B (e :: rest) st).2.len > 1
    · rw [getsU1Reads_again B (e :: rest) st hgo.1 hgo.2]
      simp only [List.headD_cons, List.tail_cons, List.map_cons, List.cons_append]
      exact (List.prefix_cons_inj _).mpr (ih _)
    · rw [getsU1Reads_done B (e :: rest) st hgo]
      simp only [List.headD_cons, List.map_cons, List.map_nil, List.cons_append]
      exact (List.prefix_cons_inj _).mpr List.nil_prefix

/-! ## The properties -/

/-- C1. `putU1` against the transmit-buffer-full flag read as a sequence of
polls, with budget 3333333: when the flag reads "not full" at one of the first
3333334 polls, `putU1 c` returns `c` and appends exactly one write of `c` to
the transmit register; when all of the first 3333334 polls read "full", it
returns the Sentinel Byte 0x18 and the transmit register is not written. -/
theorem putU1_contract (c : Nat) (hw : TxPort) :
    ((∃ k, k < 3333334 ∧ hw.UTXBF (hw.polls + k) = false) →
        (putU1 c hw).1 = c ∧ (putU1 c hw).2.TXREG = hw.TXREG ++ [c]) ∧
    ((∀ k, k < 3333334 → hw.UTXBF (hw.polls + k) = true) →
        (putU1 c hw).1 = 0x18 ∧ (putU1 c hw).2.TXREG = hw.TXREG) := by
  constructor
  · intro hex
    classical
    have hex2 : ∃ k, hw.UTXBF (hw.polls + k) = false := by
      obtain ⟨k, _, hk⟩ := hex
      exact ⟨k, hk⟩
    have hfree := Nat.find_spec hex2
    have hbound : Nat.find hex2 < 3333334 := by
      obtain ⟨k, hk, hk2⟩ := hex
      exact lt_of_le_of_lt (Nat.find_min' hex2 hk2) hk
    have hfull : ∀ j, j < Nat.find hex2 → hw.UTXBF (hw.polls + j) = true := by
      intro j hj
      have := Nat.find_min hex2 hj
      simpa using this
    have hw1 := putU1Wait_ready (Nat.find hex2) hw 0
      (by simp only [maxWaitCounts]; omega) hfull hfree
    simp [putU1, hw1]
  · intro hall
    have hw1 := putU1Wait_timeout 3333333 hw 0 (by simp [maxWaitCounts]) hall
    simp [putU1, hw1]

/-- C1 at two inputs: a transmitter that is never full takes the byte, a
transmitter that is always full gets nothing and the caller gets 0x18. -/
theorem putU1_contract_witness :
    ((putU1 0x41 { UTXBF := fun _ => false, polls := 0, TXREG := [] }).1 = 0x41 ∧
      (putU1 0x41 { UTXBF := fun _ => false, polls := 0, TXREG := [] }).2.TXREG = [0x41]) ∧
    ((putU1 0x41 { UTXBF := fun _ => true, polls := 0, TXREG := [] }).1 = 0x18 ∧
      (putU1 0x41 { UTXBF := fun _ => true, polls := 0, TXREG := [] }).2.TXREG = []) :=
  ⟨(putU1_contract 0x41 { UTXBF := fun _ => false, polls := 0, TXREG := [] }).1
      ⟨0, by decide, rfl⟩,
    (putU1_contract 0x41 { UTXBF := fun _ => true, polls := 0, TXREG := [] }).2
      (fun _ _ => rfl)⟩

/-- C2. `getU1` against the receive-available flag read as a sequence of
polls, with budget 60000000: it returns the Sentinel Byte 0x18 without a read
of the receive register exactly when the first 60000000 polls all read "no
data"; in every other case it reads the receive register once and returns its
byte. -/
theorem getU1_contract (hw : RxPort) :
    (((getU1 hw).val = 0x18 ∧ (getU1 hw).reads = 0) ↔
        ∀ k, k < 60000000 → hw.URXDA k = false) ∧
    ((∃ k, k < 60000000 ∧ hw.URXDA k = true) →
        (getU1 hw).val = hw.RXREG % 256 ∧ (getU1 hw).reads = 1) := by
  refine ⟨⟨?_, ?_⟩, getU1_of_data hw⟩
  · intro hres k hk
    by_contra hne
    have hdata : hw.URXDA k = true := by simpa using hne
    have := (getU1_of_data hw ⟨k, hk, hdata⟩).2
    omega
  · intro hnone
    rw [getU1_timeout hw hnone]
    exact ⟨rfl, rfl⟩

/-- C2 at two inputs: a byte 0x41 that is there at the first poll is read and
returned; on a receiver that never shows data the call gives 0x18 and reads
nothing. -/
theorem getU1_contract_witness :
    ((getU1 { URXDA := fun _ => true, RXREG := 0x41 }).val = 0x41 % 256 ∧
      (getU1 { URXDA := fun _ => true, RXREG := 0x41 }).reads = 1) ∧
    ((getU1 { URXDA := fun _ => false, RXREG := 0x41 }).val = 0x18 ∧
      (getU1 { URXDA := fun _ => false, RXREG := 0x41 }).reads = 0) :=
  ⟨(getU1_contract { URXDA := fun _ => true, RXREG := 0x41 }).2 ⟨0, by decide, rfl⟩,
    (getU1_contract { URXDA := fun _ => false, RXREG := 0x41 }).1.2 (fun _ _ => rfl)⟩

/-- C3, the code at the failing input.  The receive-available flag of channel
2 never reads "data" and the receive register holds a stale 0x41: `getU2`
gives up after its 20000 counts, then reads the receive register once and
returns the stale 0x41, not 0x18. -/
theorem getU2_timeout_reads_stale_byte :
    getU2 { URXDA := fun _ => false, RXREG := 0x41 }
      = { val := 0x41, polls := 20001, reads := 1 } :=
  getU2_timeout { URXDA := fun _ => false, RXREG := 0x41 } (fun _ _ => rfl)

/-- C4 as written fails on a line feed.  With BACKSPACE = 8 and capacity 5,
the sequence `w = [0x0A]` holds no 0x18, no carriage return and no BACKSPACE
and is shorter than capacity - 1, and the bytes delivered are `w` and a
carriage return; yet `getsU1` returns with the null byte at `buffer[0]`, not
the line feed `w[0]`: the line feed was dropped, the returned line is empty. -/
theorem getsU1_verbatim_fails_on_line_feed :
    (∀ b, b ∈ [0x0A] → b ≠ 0x18 ∧ b ≠ 0x0D ∧ b ≠ 8) ∧
    (([0x0A] : List Nat).length : Int) < 5 - 1 ∧
    [ready 0x0A, ready 0x0D].map rxByte = [0x0A] ++ [0x0D] ∧
    (getsU1 8 [ready 0x0A, ready 0x0D] idle (fun _ => 0xFF) 5).buf 0 = 0 ∧
    (getsU1 8 [ready 0x0A, ready 0x0D] idle (fun _ => 0xFF) 5).s = 0 ∧
    (getsU1 8 [ready 0x0A, ready 0x0D] idle (fun _ => 0xFF) 5).buf 0 ≠ ([0x0A] : List Nat)[0] := by
  have hrun := getsU1Loop_line_feed 8 (ready 0x0A) [ready 0x0D]
    { buf := fun _ => 0xFF, s := 0, len := 5, tx := idle, echo := [], stores := [], gets := 0 }
    (rxByte_ready 0x0A) (Or.inl (by decide))
  simp only [show ((5 : Int) > 1) by decide, if_true] at hrun
  rw [getsU1Loop_carriage_return 8 _ _ _ (rxByte_ready 0x0D) (Or.inl (by decide))] at hrun
  refine ⟨by decide, by decide, ?_, ?_, ?_, ?_⟩
  · simp [rxByte_ready]
  · rw [getsU1, hrun]; simp [LineState.store, LineState.put]
  · rw [getsU1, hrun]; simp [LineState.store, LineState.put]
  · rw [getsU1, hrun]; simp [LineState.store, LineState.put]

/-- C4, amended.  `getsU1` stores ordinary input verbatim: for every capacity
and every byte sequence `w` with no Sentinel Byte 0x18, no carriage return, no
BACKSPACE and no line feed, of length below capacity - 1, when the bytes the
successive `getU1` calls deliver are `w`, then a carriage return (then
anything), `getsU1` returns with `buffer[0..|w|)` equal to `w` and
`buffer[|w|]` the null byte, the cursor at `|w|`, after `|w| + 1` calls of
`getU1`.  BACKSPACE is a code other than the carriage return. -/
theorem getsU1_stores_verbatim (B : Nat) (hB : B ≠ 0x0D) (cap : Int) (w : List Nat)
    (rx : List RxPort) (rest : List Nat) (tx : TxPort) (buf : Nat → Nat)
    (hw : ∀ b, b ∈ w → b ≠ 0x18 ∧ b ≠ 0x0D ∧ b ≠ B ∧ b ≠ 0x0A)
    (hlen : (w.length : Int) < cap - 1)
    (hrx : rx.map rxByte = w ++ 0x0D :: rest) :
    (∀ i (h : i < w.length), (getsU1 B rx tx buf cap).buf i = w[i]) ∧
    (getsU1 B rx tx buf cap).buf w.length = 0 ∧
    (getsU1 B rx tx buf cap).s = w.length ∧
    (getsU1 B rx tx buf cap).gets = w.length + 1 := by
  obtain ⟨l1, l2, hsplit, hl1, hl2⟩ := List.map_eq_append_iff.mp hrx
  obtain ⟨e, l3, hl2c, he, _⟩ := List.map_eq_cons_iff.mp hl2
  subst hsplit hl2c
  have hord : ∀ e2, e2 ∈ l1 →
      rxByte e2 ≠ B ∧ rxByte e2 ≠ 0x0A ∧ rxByte e2 ≠ 0x0D ∧ rxByte e2 ≠ 0x18 := by
    intro e2 he2
    have := hw (rxByte e2) (by rw [← hl1]; exact List.mem_map_of_mem rxByte he2)
    exact ⟨this.2.2.1, this.2.2.2, this.2.1, this.1⟩
  have hl1len : l1.length = w.length := by rw [← hl1, List.length_map]
  rw [getsU1, getsU1Loop_ordinary_prefix B l1 (e :: l3) _ hord (by rw [hl1len]; exact hlen),
    getsU1Loop_carriage_return B e l3 _ he (Or.inl hB), hl1]
  have hs := keep_foldl_s w
    { buf := buf, s := 0, len := cap, tx := tx, echo := [], stores := [], gets := 0 }
  have hg := keep_foldl_gets w
    { buf := buf, s := 0, len := cap, tx := tx, echo := [], stores := [], gets := 0 }
  simp only [Nat.zero_add] at hs hg
  refine ⟨?_, ?_, ?_, ?_⟩
  · intro i h
    have hb := keep_foldl_buf w
      { buf := buf, s := 0, len := cap, tx := tx, echo := [], stores := [], gets := 0 } i h
    simp only [Nat.zero_add] at hb
    have hne : i ≠ w.length := by omega
    simp [LineState.store, LineState.put, hs, Function.update_noteq hne, hb]
  · simp [LineState.store, LineState.put, hs]
  · simp [LineState.store, LineState.put, hs]
  · simp [LineState.store, LineState.put, hg]

/-- C4, amended, at capacity 5 and input "ab\r" with BACKSPACE = 8: the
buffer comes back as "ab\0". -/
theorem getsU1_stores_verbatim_witness :
    (∀ i (h : i < [0x61, 0x62].length),
      (getsU1 8 [ready 0x61, ready 0x62, ready 0x0D] idle (fun _ => 0xFF) 5).buf i
        = [0x61, 0x62][i]) ∧
    (getsU1 8 [ready 0x61, ready 0x62, ready 0x0D] idle (fun _ => 0xFF) 5).buf
      [0x61, 0x62].length = 0 ∧
    (getsU1 8 [ready 0x61, ready 0x62, ready 0x0D] idle (fun _ => 0xFF) 5).s
      = [0x61, 0x62].length ∧
    (getsU1 8 [ready 0x61, ready 0x62, ready 0x0D] idle (fun _ => 0xFF) 5).gets
      = [0x61, 0x62].length + 1 :=
  getsU1_stores_verbatim 8 (by decide) 5 [0x61, 0x62]
    [ready 0x61, ready 0x62, ready 0x0D] [] idle (fun _ => 0xFF) (by decide) (by decide)
    (by simp [rxByte_ready])

/-- C5, the code at the failing input.  Capacity 1, one ordinary byte 'a'
received (BACKSPACE = 8): the `do ... while` runs its body before it looks at
`len`, stores 'a' at index 0, and the null terminator is then written at
index 1, which is not below the capacity 1. -/
theorem getsU1_capacity_one_writes_past_buffer :
    (getsU1 8 [ready 0x61] idle (fun _ => 0xFF) 1).stores = [0, 1] ∧
    (getsU1 8 [ready 0x61] idle (fun _ => 0xFF) 1).s = 1 ∧
    (getsU1 8 [ready 0x61] idle (fun _ => 0xFF) 1).buf 0 = 0x61 ∧
    (getsU1 8 [ready 0x61] idle (fun _ => 0xFF) 1).buf 1 = 0 := by
  have h61 : rxByte (ready 0x61) = 0x61 := rxByte_ready 0x61
  have hrun := getsU1Loop_ordinary 8 (ready 0x61) []
    { buf := fun _ => 0xFF, s := 0, len := 1, tx := idle, echo := [], stores := [], gets := 0 }
    (by rw [h61]; decide) (by rw [h61]; decide) (by rw [h61]; decide) (Or.inr rfl)
  simp only [show ¬ ((1 : Int) - 1 > 1) by decide, if_false, h61] at hrun
  refine ⟨?_, ?_, ?_, ?_⟩ <;>
    (rw [getsU1, hrun]; simp [LineState.keep, LineState.store, LineState.put])

/-- C6. `getsU1` stops on a full buffer: for every capacity of 2 or more and
every received stream that begins with capacity - 1 ordinary bytes `w` (none
of BACKSPACE, line feed, carriage return, 0x18), `getsU1` makes exactly
capacity - 1 calls of `getU1`, so reads no byte after `w`, and returns with
`buffer[0..capacity-1)` equal to `w`, `buffer[capacity-1]` the null byte and
the cursor at capacity - 1. -/
theorem getsU1_stops_on_full_buffer (B : Nat) (cap : Int) (hcap : 2 ≤ cap) (w : List Nat)
    (rx : List RxPort) (rest : List Nat) (tx : TxPort) (buf : Nat → Nat)
    (hw : ∀ b, b ∈ w → b ≠ B ∧ b ≠ 0x0A ∧ b ≠ 0x0D ∧ b ≠ 0x18)
    (hlen : (w.length : Int) = cap - 1)
    (hrx : rx.map rxByte = w ++ rest) :
    (getsU1 B rx tx buf cap).gets = w.length ∧
    (∀ i (h : i < w.length), (getsU1 B rx tx buf cap).buf i = w[i]) ∧
    (getsU1 B rx tx buf cap).buf w.length = 0 ∧
    (getsU1 B rx tx buf cap).s = w.length := by
  obtain ⟨l1, l2, hsplit, hl1, _⟩ := List.map_eq_append_iff.mp hrx
  subst hsplit
  have hord : ∀ e2, e2 ∈ l1 →
      rxByte e2 ≠ B ∧ rxByte e2 ≠ 0x0A ∧ rxByte e2 ≠ 0x0D ∧ rxByte e2 ≠ 0x18 := by
    intro e2 he2
    exact hw (rxByte e2) (by rw [← hl1]; exact List.mem_map_of_mem rxByte he2)
  have hl1len : l1.length = w.length := by rw [← hl1, List.length_map]
  have hne : l1 ≠ [] := by
    intro h
    rw [h] at hl1len
    rw [← hl1len] at hlen
    simp at hlen
    omega
  rw [getsU1, getsU1Loop_fill B l1 l2 _ hord hne (by rw [hl1len]; exact hlen), hl1]
  have hs := keep_foldl_s w
    { buf := buf, s := 0, len := cap, tx := tx, echo := [], stores := [], gets := 0 }
  have hg := keep_foldl_gets w
    { buf := buf, s := 0, len := cap, tx := tx, echo := [], stores := [], gets := 0 }
  simp only [Nat.zero_add] at hs hg
  refine ⟨?_, ?_, ?_, ?_⟩
  · simp [LineState.store, hg]
  · intro i h
    have hb := keep_foldl_buf w
      { buf := buf, s := 0, len := cap, tx := tx, echo := [], stores := [], gets := 0 } i h
    simp only [Nat.zero_add] at hb
    have hne : i ≠ w.length := by omega
    simp [LineState.store, hs, Function.update_noteq hne, hb]
  · simp [LineState.store, hs]
  · simp [LineState.store, hs]

/-- C6 at the spec's example, capacity 5 and input "abcd\r" with
BACKSPACE = 8: four `getU1` calls, the carriage return is never read, the
buffer comes back as "abcd\0". -/
theorem getsU1_stops_on_full_buffer_witness :
    (getsU1 8 [ready 0x61, ready 0x62, ready 0x63, ready 0x64, ready 0x0D] idle
      (fun _ => 0xFF) 5).gets = [0x61, 0x62, 0x63, 0x64].length ∧
    (∀ i (h : i < [0x61, 0x62, 0x63, 0x64].length),
      (getsU1 8 [ready 0x61, ready 0x62, ready 0x63, ready 0x64, ready 0x0D] idle
        (fun _ => 0xFF) 5).buf i = [0x61, 0x62, 0x63, 0x64][i]) ∧
    (getsU1 8 [ready 0x61, ready 0x62, ready 0x63, ready 0x64, ready 0x0D] idle
      (fun _ => 0xFF) 5).buf [0x61, 0x62, 0x63, 0x64].length = 0 ∧
    (getsU1 8 [ready 0x61, ready 0x62, ready 0x63, ready 0x64, ready 0x0D] idle
      (fun _ => 0xFF) 5).s = [0x61, 0x62, 0x63, 0x64].length :=
  getsU1_stops_on_full_buffer 8 5 (by decide) [0x61, 0x62, 0x63, 0x64]
    [ready 0x61, ready 0x62, ready 0x63, ready 0x64, ready 0x0D] [0x0D] idle (fun _ => 0xFF)
    (by decide) (by decide) (by simp [rxByte_ready])

/-- C7. A carriage return ends the line and is not part of it.  `st` is the
state of `getsU1` at the top of its loop (any cursor `st.s`, any `len`, so any
capacity and any bytes read before), `e` the receiver readings on which the
next `getU1` returns a carriage return, `rest` whatever the receiver would
show afterwards.  Then `getsU1` makes that one `getU1` call and no other, the
cursor stays at `st.s`, the byte at the cursor is the null byte on return and
the bytes below the cursor are as they were. -/
theorem getsU1_carriage_return_ends_line (B : Nat) (hB : B ≠ 0x0D) (st : LineState)
    (e : RxPort) (rest : List RxPort) (he : rxByte e = 0x0D) :
    ((getsU1Loop B (e :: rest) st).store 0).gets = st.gets + 1 ∧
    ((getsU1Loop B (e :: rest) st).store 0).s = st.s ∧
    ((getsU1Loop B (e :: rest) st).store 0).buf st.s = 0 ∧
    (∀ i, i < st.s → ((getsU1Loop B (e :: rest) st).store 0).buf i = st.buf i) ∧
    ((getsU1Loop B (e :: rest) st).store 0).len = st.len := by
  have hp : getsU1Pass B (e :: rest) st
      = (Flow.leave, ({ st with gets := st.gets + 1 }.store 0x0D).put 0x0D) := by
    rw [getsU1Pass_cons, he]
    exact getsU1Body_carriage_return B _ (Or.inl hB)
  rw [getsU1Loop_done B (e :: rest) st (by simp [hp]), hp]
  refine ⟨rfl, rfl, ?_, ?_, rfl⟩
  · simp [LineState.store, LineState.put]
  · intro i hi
    have hne : i ≠ st.s := by omega
    simp [LineState.store, LineState.put, Function.update_noteq hne]

/-- C7 at the spec's example, capacity 5 and input "ab\r" with BACKSPACE = 8:
the carriage return is read at the state reached after "ab" (cursor 2), and
the call returns "ab\0" with the cursor at 2 after three `getU1` calls. -/
theorem getsU1_carriage_return_ends_line_witness :
    (getsU1 8 [ready 0x61, ready 0x62, ready 0x0D] idle (fun _ => 0xFF) 5).gets = 3 ∧
    (getsU1 8 [ready 0x61, ready 0x62, ready 0x0D] idle (fun _ => 0xFF) 5).s = 2 ∧
    (getsU1 8 [ready 0x61, ready 0x62, ready 0x0D] idle (fun _ => 0xFF) 5).buf 2 = 0 ∧
    (getsU1 8 [ready 0x61, ready 0x62, ready 0x0D] idle (fun _ => 0xFF) 5).buf 0 = 0x61 ∧
    (getsU1 8 [ready 0x61, ready 0x62, ready 0x0D] idle (fun _ => 0xFF) 5).buf 1 = 0x62 := by
  have hpre := getsU1Loop_ordinary_prefix 8 [ready 0x61, ready 0x62] [ready 0x0D]
    { buf := fun _ => 0xFF, s := 0, len := 5, tx := idle, echo := [], stores := [], gets := 0 }
    (by
      intro e he
      simp only [List.mem_cons, List.mem_singleton, List.not_mem_nil, or_false] at he
      rcases he with h | h <;> subst h <;> simp [rxByte_ready])
    (by decide)
  have h := getsU1_carriage_return_ends_line 8 (by decide)
    (([ready 0x61, ready 0x62].map rxByte).foldl LineState.keep
      { buf := fun _ => 0xFF, s := 0, len := 5, tx := idle, echo := [], stores := [],
        gets := 0 })
    (ready 0x0D) [] (rxByte_ready 0x0D)
  have hcall : getsU1 8 [ready 0x61, ready 0x62, ready 0x0D] idle (fun _ => 0xFF) 5
      = (getsU1Loop 8 [ready 0x0D]
          (([ready 0x61, ready 0x62].map rxByte).foldl LineState.keep
            { buf := fun _ => 0xFF, s := 0, len := 5, tx := idle, echo := [], stores := [],
              gets := 0 })).store 0 := by
    rw [← hpre]
    rfl
  have hs : (([ready 0x61, ready 0x62].map rxByte).foldl LineState.keep
      { buf := fun _ => 0xFF, s := 0, len := 5, tx := idle, echo := [], stores := [],
        gets := 0 }).s = 2 := by
    rw [keep_foldl_s]; rfl
  have hg : (([ready 0x61, ready 0x62].map rxByte).foldl LineState.keep
      { buf := fun _ => 0xFF, s := 0, len := 5, tx := idle, echo := [], stores := [],
        gets := 0 }).gets = 2 := by
    rw [keep_foldl_gets]; rfl
  rw [hs, hg] at h
  rw [hcall]
  refine ⟨h.1, h.2.1, h.2.2.1, ?_, ?_⟩
  · rw [h.2.2.2.1 0 (by decide)]
    simp [rxByte_ready, LineState.keep, LineState.store, LineState.put]
  · rw [h.2.2.2.1 1 (by decide)]
    simp [rxByte_ready, LineState.keep, LineState.store, LineState.put]

/-- C8. BACKSPACE undoes the byte stored just before it.  `st` is the state of
`getsU1` at the top of its loop, cursor `k = st.s`, remaining capacity
`n = st.len > 2`.  Reading an ordinary byte `x` (not BACKSPACE, line feed,
carriage return or 0x18) takes the reader to cursor `k + 1` and `len = n - 1`,
and reading BACKSPACE next takes it back to cursor `k` and `len = n` with the
bytes below `k` untouched, still reading.  So the run on `x, BACKSPACE, rest`
from `st` returns the same line as the run on `rest` from `st`: the same
final cursor and the same bytes up to and including the null terminator at
the cursor. -/
theorem getsU1_backspace_undoes_byte (B x : Nat) (st : LineState) (e1 e2 : RxPort)
    (rest : List RxPort) (hx : x ≠ B ∧ x ≠ 0x0A ∧ x ≠ 0x0D ∧ x ≠ 0x18) (hn : st.len > 2)
    (h1 : rxByte e1 = x) (h2 : rxByte e2 = B) :
    (getsU1Pass B (e1 :: e2 :: rest) st).1 = Flow.test ∧
    (getsU1Pass B (e1 :: e2 :: rest) st).2.s = st.s + 1 ∧
    (getsU1Pass B (e1 :: e2 :: rest) st).2.len = st.len - 1 ∧
    (getsU1Pass B (e2 :: rest) (getsU1Pass B (e1 :: e2 :: rest) st).2).1 = Flow.test ∧
    (getsU1Pass B (e2 :: rest) (getsU1Pass B (e1 :: e2 :: rest) st).2).2.s = st.s ∧
    (getsU1Pass B (e2 :: rest) (getsU1Pass B (e1 :: e2 :: rest) st).2).2.len = st.len ∧
    (∀ i, i < st.s →
      (getsU1Pass B (e2 :: rest) (getsU1Pass B (e1 :: e2 :: rest) st).2).2.buf i = st.buf i) ∧
    getsU1Loop B (e1 :: e2 :: rest) st
      = getsU1Loop B rest (getsU1Pass B (e2 :: rest) (getsU1Pass B (e1 :: e2 :: rest) st).2).2 ∧
    ((getsU1Loop B (e1 :: e2 :: rest) st).store 0).s = ((getsU1Loop B rest st).store 0).s ∧
    (∀ i, i ≤ ((getsU1Loop B rest st).store 0).s →
      ((getsU1Loop B (e1 :: e2 :: rest) st).store 0).buf i
        = ((getsU1Loop B rest st).store 0).buf i) := by
  have hp1 : getsU1Pass B (e1 :: e2 :: rest) st = (Flow.test, st.keep x) := by
    rw [getsU1Pass_cons, h1]
    exact getsU1Body_ordinary B x _ hx.2.2.2 hx.2.1 hx.2.2.1 (Or.inl hx.1)
  have hks : (st.keep x).s = st.s + 1 := rfl
  have hkl : (st.keep x).len = st.len - 1 := rfl
  have hkb : ∀ i, i < st.s → (st.keep x).buf i = st.buf i := by
    intro i hi
    have hne : i ≠ st.s := by omega
    simp [LineState.keep, LineState.store, LineState.put, Function.update_noteq hne]
  have hb := getsU1Body_backspace B { st.keep x with gets := (st.keep x).gets + 1 }
    (by simp only [hks]; omega)
  have hp2 : getsU1Pass B (e2 :: rest) (st.keep x)
      = getsU1Body B B { st.keep x with gets := (st.keep x).gets + 1 } := by
    rw [getsU1Pass_cons, h2]
  have h2s : (getsU1Pass B (e2 :: rest) (st.keep x)).2.s = st.s := by
    rw [hp2, hb.2.1]
    simp only [hks]
    omega
  have h2l : (getsU1Pass B (e2 :: rest) (st.keep x)).2.len = st.len := by
    rw [hp2, hb.2.2.1]
    simp only [hkl]
    omega
  have h2b : ∀ i, i < st.s → (getsU1Pass B (e2 :: rest) (st.keep x)).2.buf i = st.buf i := by
    intro i hi
    rw [hp2, hb.2.2.2.1]
    have hne : i ≠ (st.keep x).s := by rw [hks]; omega
    show Function.update (st.keep x).buf (st.keep x).s B i = st.buf i
    rw [Function.update_noteq hne]
    exact hkb i hi
  have hloop : getsU1Loop B (e1 :: e2 :: rest) st
      = getsU1Loop B rest (getsU1Pass B (e2 :: rest) (st.keep x)).2 := by
    rw [getsU1Loop_again B (e1 :: e2 :: rest) st (by rw [hp1]) (by rw [hp1, hkl]; omega), hp1]
    simp only [List.tail_cons]
    rw [getsU1Loop_again B (e2 :: rest) (st.keep x) (by rw [hp2]; exact hb.1)
      (by rw [h2l]; omega)]
    simp only [List.tail_cons]
  have hag : Agree (getsU1Loop B rest (getsU1Pass B (e2 :: rest) (st.keep x)).2)
      (getsU1Loop B rest st) :=
    getsU1Loop_agree B rest _ st ⟨h2s, h2l, fun i hi => h2b i (by rw [h2s] at hi; exact hi)⟩
  rw [hp1]
  refine ⟨rfl, hks, hkl, by rw [hp2]; exact hb.1, h2s, h2l, h2b, hloop, ?_, ?_⟩
  · rw [hloop]
    exact hag.1
  · intro i hi
    rw [hloop]
    simp only [LineState.store] at hi ⊢
    rw [hag.1]
    by_cases hi2 : i = (getsU1Loop B rest st).s
    · subst hi2; simp
    · rw [Function.update_noteq hi2, Function.update_noteq hi2]
      exact hag.2.2 i (by rw [hag.1]; omega)

/-- C8 at the spec's example with BACKSPACE = 8 and capacity 5: on input
'a', BACKSPACE, 'b', carriage return `getsU1` returns the line of input
'b', carriage return, and the buffer comes back as "b\0". -/
theorem getsU1_backspace_undoes_byte_witness :
    (getsU1 8 [ready 0x61, ready 8, ready 0x62, ready 0x0D] idle (fun _ => 0xFF) 5).s
      = (getsU1 8 [ready 0x62, ready 0x0D] idle (fun _ => 0xFF) 5).s ∧
    (∀ i, i ≤ (getsU1 8 [ready 0x62, ready 0x0D] idle (fun _ => 0xFF) 5).s →
      (getsU1 8 [ready 0x61, ready 8, ready 0x62, ready 0x0D] idle (fun _ => 0xFF) 5).buf i
        = (getsU1 8 [ready 0x62, ready 0x0D] idle (fun _ => 0xFF) 5).buf i) ∧
    (getsU1 8 [ready 0x62, ready 0x0D] idle (fun _ => 0xFF) 5).s = 1 ∧
    (getsU1 8 [ready 0x62, ready 0x0D] idle (fun _ => 0xFF) 5).buf 0 = 0x62 ∧
    (getsU1 8 [ready 0x62, ready 0x0D] idle (fun _ => 0xFF) 5).buf 1 = 0 := by
  have h := getsU1_backspace_undoes_byte 8 0x61
    { buf := fun _ => 0xFF, s := 0, len := 5, tx := idle, echo := [], stores := [], gets := 0 }
    (ready 0x61) (ready 8) [ready 0x62, ready 0x0D] (by decide) (by decide)
    (rxByte_ready 0x61) (rxByte_ready 8)
  have h62 : rxByte (ready 0x62) = 0x62 := rxByte_ready 0x62
  have hrun := getsU1Loop_ordinary 8 (ready 0x62) [ready 0x0D]
    { buf := fun _ => 0xFF, s := 0, len := 5, tx := idle, echo := [], stores := [], gets := 0 }
    (by rw [h62]; decide) (by rw [h62]; decide) (by rw [h62]; decide) (Or.inr rfl)
  simp only [show ((5 : Int) - 1 > 1) by decide, if_true, h62] at hrun
  rw [getsU1Loop_carriage_return 8 _ _ _ (rxByte_ready 0x0D) (Or.inl (by decide))] at hrun
  refine ⟨h.2.2.2.2.2.2.2.2.1, h.2.2.2.2.2.2.2.2.2, ?_, ?_, ?_⟩ <;>
    (rw [getsU1, hrun]; simp [LineState.keep, LineState.store, LineState.put])

/-- C9. BACKSPACE at the buffer start is stored as data.  When `getU1`
returns BACKSPACE while the cursor is at index 0, the pass of the loop stores
it at `buffer[0]`, moves the cursor to 1, takes one off `len`, and calls
`putU1` once, with the byte itself: no erase sequence.  For a capacity of 3 or
more and input BACKSPACE, 'a', carriage return, `getsU1` returns with the
buffer `[BACKSPACE, 'a', 0]`.  BACKSPACE is a code other than line feed,
carriage return and 0x18 (and than 'a' in the example). -/
theorem getsU1_backspace_at_start_is_data (B : Nat) (hlf : B ≠ 0x0A) (hcr : B ≠ 0x0D)
    (h18 : B ≠ 0x18) (e : RxPort) (he : rxByte e = B) :
    (∀ (st : LineState) (rest : List RxPort), st.s = 0 →
      getsU1Pass B (e :: rest) st
        = (Flow.test,
            { buf := Function.update st.buf 0 B, s := 1, len := st.len - 1,
              tx := (putU1 B st.tx).2, echo := st.echo ++ [B],
              stores := st.stores ++ [0], gets := st.gets + 1 })) ∧
    (∀ (cap : Int) (e2 e3 : RxPort) (rest : List RxPort) (tx : TxPort) (buf : Nat → Nat),
      3 ≤ cap → B ≠ 0x61 → rxByte e2 = 0x61 → rxByte e3 = 0x0D →
      (getsU1 B (e :: e2 :: e3 :: rest) tx buf cap).buf 0 = B ∧
      (getsU1 B (e :: e2 :: e3 :: rest) tx buf cap).buf 1 = 0x61 ∧
      (getsU1 B (e :: e2 :: e3 :: rest) tx buf cap).buf 2 = 0 ∧
      (getsU1 B (e :: e2 :: e3 :: rest) tx buf cap).s = 2) := by
  constructor
  · intro st rest hs
    rw [getsU1Pass_cons, he,
      getsU1Body_ordinary B B { st with gets := st.gets + 1 } h18 hlf hcr (Or.inr hs)]
    simp [LineState.store, LineState.put, hs]
  · intro cap e2 e3 rest tx buf hcap h61 he2 he3
    have hgt : cap - 1 > 1 := by omega
    have h1 := getsU1Loop_ordinary B e (e2 :: e3 :: rest)
      { buf := buf, s := 0, len := cap, tx := tx, echo := [], stores := [], gets := 0 }
      (by rw [he]; exact h18) (by rw [he]; exact hlf) (by rw [he]; exact hcr) (Or.inr rfl)
    simp only [hgt, if_true, he] at h1
    have h2 := getsU1Loop_ordinary B e2 (e3 :: rest)
      (({ buf := buf, s := 0, len := cap, tx := tx, echo := [], stores := [],
          gets := 0 } : LineState).keep B)
      (by rw [he2]; decide) (by rw [he2]; decide) (by rw [he2]; decide)
      (Or.inl (by rw [he2]; exact fun h => h61 h.symm))
    rw [keep_len, he2] at h2
    by_cases hgt2 : cap - 1 - 1 > 1
    · simp only [hgt2, if_true] at h2
      rw [getsU1Loop_carriage_return B e3 _ _ he3 (Or.inl hcr)] at h2
      refine ⟨?_, ?_, ?_, ?_⟩ <;>
        (rw [getsU1, h1, h2]; simp [LineState.keep, LineState.store, LineState.put])
    · simp only [hgt2, if_false] at h2
      refine ⟨?_, ?_, ?_, ?_⟩ <;>
        (rw [getsU1, h1, h2]; simp [LineState.keep, LineState.store, LineState.put])

/-- C9 with BACKSPACE = 8, capacity 5 and input BACKSPACE, 'a', carriage
return: the first pass keeps the BACKSPACE and echoes it once, and the buffer
comes back as `[8, 'a', 0]`. -/
theorem getsU1_backspace_at_start_is_data_witness :
    getsU1Pass 8 [ready 8, ready 0x61, ready 0x0D]
        { buf := fun _ => 0xFF, s := 0, len := 5, tx := idle, echo := [], stores := [],
          gets := 0 }
      = (Flow.test,
          { buf := Function.update (fun _ => 0xFF) 0 8, s := 1, len := 5 - 1,
            tx := (putU1 8 idle).2, echo := [] ++ [8], stores := [] ++ [0], gets := 0 + 1 }) ∧
    (getsU1 8 [ready 8, ready 0x61, ready 0x0D] idle (fun _ => 0xFF) 5).buf 0 = 8 ∧
    (getsU1 8 [ready 8, ready 0x61, ready 0x0D] idle (fun _ => 0xFF) 5).buf 1 = 0x61 ∧
    (getsU1 8 [ready 8, ready 0x61, ready 0x0D] idle (fun _ => 0xFF) 5).buf 2 = 0 ∧
    (getsU1 8 [ready 8, ready 0x61, ready 0x0D] idle (fun _ => 0xFF) 5).s = 2 :=
  ⟨(getsU1_backspace_at_start_is_data 8 (by decide) (by decide) (by decide) (ready 8)
      (rxByte_ready 8)).1 _ _ rfl,
    (getsU1_backspace_at_start_is_data 8 (by decide) (by decide) (by decide) (ready 8)
      (rxByte_ready 8)).2 5 (ready 0x61) (ready 0x0D) [] idle (fun _ => 0xFF) (by decide)
      (by decide) (rxByte_ready 0x61) (rxByte_ready 0x0D)⟩

/-- C10. The Sentinel Byte aborts `getsU1` at once, whether the peer sent
0x18 or `getU1` timed out.  `st` is the state of `getsU1` at the top of its
loop, cursor `k = st.s`.  When the next `getU1` call times out (its first
60000000 polls read "no data") or reads a 0x18 from the receive register,
`getsU1` makes that one `getU1` call and no other, leaves `buffer[0..k)` as
it was, holds 0x18 at `buffer[k]` and the null terminator at `buffer[k+1]`,
the cursor at `k + 1`, echoes nothing and leaves `len` alone; the returned
state is the same one in both cases, and on a link that is silent from here
on.  BACKSPACE is a code other than 0x18. -/
theorem getsU1_sentinel_aborts (B : Nat) (h18 : B ≠ 0x18) (st : LineState) :
    (∀ (e : RxPort) (rest : List RxPort),
      ((∀ k, k < 60000000 → e.URXDA k = false) ∨
        ((∃ k, k < 60000000 ∧ e.URXDA k = true) ∧ e.RXREG % 256 = 0x18)) →
      (getsU1Loop B (e :: rest) st).store 0
        = { buf := Function.update (Function.update st.buf st.s 0x18) (st.s + 1) 0,
            s := st.s + 1, len := st.len, tx := st.tx, echo := st.echo,
            stores := st.stores ++ [st.s, st.s + 1], gets := st.gets + 1 }) ∧
    (getsU1Loop B [] st).store 0
      = { buf := Function.update (Function.update st.buf st.s 0x18) (st.s + 1) 0,
          s := st.s + 1, len := st.len, tx := st.tx, echo := st.echo,
          stores := st.stores ++ [st.s, st.s + 1], gets := st.gets + 1 } := by
  constructor
  · intro e rest h
    have he : rxByte e = 0x18 := by
      rcases h with h | ⟨hdata, hreg⟩
      · rw [rxByte, getU1_timeout e h]
      · rw [rxByte, (getU1_of_data e hdata).1, hreg]
    rw [getsU1Loop_sentinel B e rest st he (Or.inl h18)]
    simp [LineState.store]
  · rw [getsU1Loop_silent B st (Or.inl h18)]
    simp [LineState.store]

/-- C10 with BACKSPACE = 8 and capacity 5, after an 'a': a receive timeout
and a 0x18 sent by the peer give the same returned state, with the buffer
`['a', 0x18, 0]`, the cursor at 2, two `getU1` calls and only the 'a'
echoed; the 'b' that follows is not read. -/
theorem getsU1_sentinel_aborts_witness :
    getsU1 8 [ready 0x61, silent, ready 0x62] idle (fun _ => 0xFF) 5
      = getsU1 8 [ready 0x61, ready 0x18, ready 0x62] idle (fun _ => 0xFF) 5 ∧
    (getsU1 8 [ready 0x61, silent, ready 0x62] idle (fun _ => 0xFF) 5).buf 0 = 0x61 ∧
    (getsU1 8 [ready 0x61, silent, ready 0x62] idle (fun _ => 0xFF) 5).buf 1 = 0x18 ∧
    (getsU1 8 [ready 0x61, silent, ready 0x62] idle (fun _ => 0xFF) 5).buf 2 = 0 ∧
    (getsU1 8 [ready 0x61, silent, ready 0x62] idle (fun _ => 0xFF) 5).s = 2 ∧
    (getsU1 8 [ready 0x61, silent, ready 0x62] idle (fun _ => 0xFF) 5).gets = 2 ∧
    (getsU1 8 [ready 0x61, silent, ready 0x62] idle (fun _ => 0xFF) 5).echo = [0x61] := by
  have hord : ∀ e, e ∈ [ready 0x61] →
      rxByte e ≠ 8 ∧ rxByte e ≠ 0x0A ∧ rxByte e ≠ 0x0D ∧ rxByte e ≠ 0x18 := by
    intro e he
    rw [List.mem_singleton.mp he]
    simp [rxByte_ready]
  have hpre1 := getsU1Loop_ordinary_prefix 8 [ready 0x61] [silent, ready 0x62]
    { buf := fun _ => 0xFF, s := 0, len := 5, tx := idle, echo := [], stores := [], gets := 0 }
    hord (by decide)
  have hpre2 := getsU1Loop_ordinary_prefix 8 [ready 0x61] [ready 0x18, ready 0x62]
    { buf := fun _ => 0xFF, s := 0, len := 5, tx := idle, echo := [], stores := [], gets := 0 }
    hord (by decide)
  have h := (getsU1_sentinel_aborts 8 (by decide)
    (([ready 0x61].map rxByte).foldl LineState.keep
      { buf := fun _ => 0xFF, s := 0, len := 5, tx := idle, echo := [], stores := [],
        gets := 0 })).1
  have h1 := h silent [ready 0x62] (Or.inl (fun _ _ => rfl))
  have h2 := h (ready 0x18) [ready 0x62] (Or.inr ⟨⟨0, by decide, rfl⟩, by decide⟩)
  have hcall1 : getsU1 8 [ready 0x61, silent, ready 0x62] idle (fun _ => 0xFF) 5
      = (getsU1Loop 8 [silent, ready 0x62]
          (([ready 0x61].map rxByte).foldl LineState.keep
            { buf := fun _ => 0xFF, s := 0, len := 5, tx := idle, echo := [], stores := [],
              gets := 0 })).store 0 := by
    rw [← hpre1]
    rfl
  have hcall2 : getsU1 8 [ready 0x61, ready 0x18, ready 0x62] idle (fun _ => 0xFF) 5
      = (getsU1Loop 8 [ready 0x18, ready 0x62]
          (([ready 0x61].map rxByte).foldl LineState.keep
            { buf := fun _ => 0xFF, s := 0, len := 5, tx := idle, echo := [], stores := [],
              gets := 0 })).store 0 := by
    rw [← hpre2]
    rfl
  rw [hcall1, hcall2, h1, h2]
  simp [rxByte_ready, LineState.keep, LineState.store, LineState.put]

/-- C12. `putsU1` sends the string in order and stops at the terminator or at
the first `putU1` call that returns 0x18.  For every content of the string's
memory `s` (the string is what stands before the first null byte) and every
transmitter: the arguments of the `putU1` calls are, in order, a prefix of the
string; no call but the last returned 0x18; the calls cover the whole string
unless the last one returned 0x18; the bytes written to the transmit register
are a prefix of the calls' arguments, so nothing after the stopping point is
transmitted; and when no call returned 0x18, every byte of the string was
passed to `putU1` and written to the transmit register exactly once, in
order. -/
theorem putsU1_sends_in_order_until_sentinel (s : List Nat) (hw : TxPort) :
    ((putsU1 s hw).1.map Prod.fst) <+: s.takeWhile (fun b => decide (b ≠ 0)) ∧
    (∀ p, p ∈ (putsU1 s hw).1.dropLast → p.2 ≠ 0x18) ∧
    ((putsU1 s hw).1.map Prod.fst = s.takeWhile (fun b => decide (b ≠ 0)) ∨
      ((putsU1 s hw).1.map Prod.snd).getLast? = some 0x18) ∧
    (∃ w, w <+: (putsU1 s hw).1.map Prod.fst ∧ (putsU1 s hw).2.TXREG = hw.TXREG ++ w) ∧
    ((∀ p, p ∈ (putsU1 s hw).1 → p.2 ≠ 0x18) →
      (putsU1 s hw).1.map Prod.fst = s.takeWhile (fun b => decide (b ≠ 0)) ∧
      (putsU1 s hw).2.TXREG = hw.TXREG ++ s.takeWhile (fun b => decide (b ≠ 0))) :=
  putsU1Loop_spec s 0 hw (by decide)

/-- C15. `putU2` has no timeout bound.  When the transmit-buffer-full flag of
channel 2 reads "full" on the first `k` polls and "not full" on the next one,
`putU2 c` returns `c` after `k + 1` polls and one write of `c` to the
transmit register, whatever `k` is (every amount of fuel above `k` shows the
return).  When the flag reads "full" for ever, no amount of fuel makes the
call return, and the transmit register is not written. -/
theorem putU2_waits_without_bound (c : Nat) (hw : TxPort) :
    (∀ k fuel, k < fuel → (∀ j, j < k → hw.UTXBF (hw.polls + j) = true) →
      hw.UTXBF (hw.polls + k) = false →
      putU2 fuel c hw
        = (some c, { hw with polls := hw.polls + k + 1, TXREG := hw.TXREG ++ [c] })) ∧
    ((∀ j, hw.UTXBF (hw.polls + j) = true) →
      ∀ fuel, putU2 fuel c hw = (none, { hw with polls := hw.polls + fuel })) := by
  constructor
  · intro k fuel hfuel hfull hfree
    simp [putU2, putU2Wait_ready k fuel hw hfuel hfull hfree]
  · intro hfull fuel
    simp [putU2, putU2Wait_full fuel hw hfull]

/-- C15 at two transmitters: one that is full for 5000000 polls (more than
the budget of channel 1) and then free takes the byte 0x41 at poll 5000001;
one that is full for ever has not returned after any number of polls and has
written nothing. -/
theorem putU2_waits_without_bound_witness :
    putU2 5000001 0x41 { UTXBF := fun k => decide (k < 5000000), polls := 0, TXREG := [] }
      = (some 0x41,
          { UTXBF := fun k => decide (k < 5000000), polls := 0 + 5000000 + 1,
            TXREG := [] ++ [0x41] }) ∧
    (∀ fuel, putU2 fuel 0x41 { UTXBF := fun _ => true, polls := 0, TXREG := [] }
      = (none, { UTXBF := fun _ => true, polls := 0 + fuel, TXREG := [] })) :=
  ⟨(putU2_waits_without_bound 0x41
      { UTXBF := fun k => decide (k < 5000000), polls := 0, TXREG := [] }).1 5000000 5000001
      (by decide) (fun j hj => by simpa using hj) (by simp),
    (putU2_waits_without_bound 0x41 { UTXBF := fun _ => true, polls := 0, TXREG := [] }).2
      (fun _ => rfl)⟩

/-- C18. `putsU1` cannot tell a transmitted 0x18 from a timeout.  With a
transmitter that is never full (no `putU1` call times out), for every string
`pre ++ [0x18] ++ post` whose first 0x18 stands after `pre` (no null and no
0x18 in `pre`), `putsU1` calls `putU1` on the bytes of `pre` and on the 0x18,
each returning its argument, writes exactly `pre ++ [0x18]` to the transmit
register, and transmits nothing of `post`. -/
theorem putsU1_stops_after_sending_sentinel (pre post : List Nat) (hw : TxPort)
    (hready : ∀ k, hw.UTXBF k = false) (hpre : ∀ b, b ∈ pre → b ≠ 0 ∧ b ≠ 0x18) :
    (putsU1 (pre ++ 0x18 :: post) hw).1 = (pre ++ [0x18]).map (fun b => (b, b)) ∧
    (putsU1 (pre ++ 0x18 :: post) hw).2.TXREG = hw.TXREG ++ pre ++ [0x18] :=
  putsU1Loop_ready_prefix pre post 0 hw (by decide) hready hpre

/-- C18 on the string "a\x18b": 'a' and 0x18 are sent, 'b' is not. -/
theorem putsU1_stops_after_sending_sentinel_witness :
    (putsU1 ([0x61] ++ 0x18 :: [0x62]) idle).1 = ([0x61] ++ [0x18]).map (fun b => (b, b)) ∧
    (putsU1 ([0x61] ++ 0x18 :: [0x62]) idle).2.TXREG = idle.TXREG ++ [0x61] ++ [0x18] :=
  putsU1_stops_after_sending_sentinel [0x61] [0x62] idle (fun _ => rfl) (by decide)

/-- C16. `getsU1` ends when the link goes silent.  `getsU1` is a total
function of the finite list `rx` of receiver readings, after which every
`getU1` call times out; it makes at least one and at most `rx.length + 1`
calls of `getU1`, and the call that returns a carriage return or 0x18 is its
last one.  BACKSPACE is a code other than 0x18 and the carriage return. -/
theorem getsU1_terminates_on_silent_link (B : Nat) (h18 : B ≠ 0x18) (hcr : B ≠ 0x0D)
    (cap : Int) (rx : List RxPort) (tx : TxPort) (buf : Nat → Nat) :
    1 ≤ (getsU1 B rx tx buf cap).gets ∧
    (getsU1 B rx tx buf cap).gets ≤ rx.length + 1 ∧
    (∀ j (hj : j < rx.length), j < (getsU1 B rx tx buf cap).gets →
      (rxByte rx[j] = 0x0D ∨ rxByte rx[j] = 0x18) →
      (getsU1 B rx tx buf cap).gets = j + 1) := by
  have h := getsU1Loop_gets B h18 rx
    { buf := buf, s := 0, len := cap, tx := tx, echo := [], stores := [], gets := 0 }
  have hg : (getsU1 B rx tx buf cap).gets
      = (getsU1Loop B rx
          { buf := buf, s := 0, len := cap, tx := tx, echo := [], stores := [],
            gets := 0 }).gets := rfl
  rw [hg]
  simp only [Nat.zero_add] at h
  exact ⟨h.1, h.2.1, h.2.2 hcr⟩

/-- C16 with BACKSPACE = 8, capacity 5 and the bytes carriage return, 'b'
followed by silence: at most three `getU1` calls, and in fact one, the 'b'
is never asked for. -/
theorem getsU1_terminates_on_silent_link_witness :
    (getsU1 8 [ready 0x0D, ready 0x62] idle (fun _ => 0xFF) 5).gets
      ≤ [ready 0x0D, ready 0x62].length + 1 ∧
    (getsU1 8 [ready 0x0D, ready 0x62] idle (fun _ => 0xFF) 5).gets = 0 + 1 :=
  ⟨(getsU1_terminates_on_silent_link 8 (by decide) (by decide) 5
      [ready 0x0D, ready 0x62] idle (fun _ => 0xFF)).2.1,
    (getsU1_terminates_on_silent_link 8 (by decide) (by decide) 5
      [ready 0x0D, ready 0x62] idle (fun _ => 0xFF)).2.2 0 (by decide)
      (getsU1_terminates_on_silent_link 8 (by decide) (by decide) 5
        [ready 0x0D, ready 0x62] idle (fun _ => 0xFF)).1
      (Or.inl (rxByte_ready 0x0D))⟩

/-- C19. Echo failures do not affect the line read.  Two runs of `getsU1`
with the same capacity and buffer whose `getU1` calls return the same bytes,
on transmitters `tx1` and `tx2` that behave in any two ways (so also when
every echo `putU1` of one run times out and returns 0x18), make the same
number of `getU1` calls and return the same buffer contents, cursor and
`len`; they also make the same `putU1` calls and the same stores.  Nothing
`putU1` returns reaches the control flow of `getsU1`. -/
theorem getsU1_line_independent_of_echo (B : Nat) (cap : Int) (rx1 rx2 : List RxPort)
    (tx1 tx2 : TxPort) (buf : Nat → Nat) (hrx : rx1.map rxByte = rx2.map rxByte) :
    (getsU1 B rx1 tx1 buf cap).gets = (getsU1 B rx2 tx2 buf cap).gets ∧
    (getsU1 B rx1 tx1 buf cap).buf = (getsU1 B rx2 tx2 buf cap).buf ∧
    (getsU1 B rx1 tx1 buf cap).s = (getsU1 B rx2 tx2 buf cap).s ∧
    (getsU1 B rx1 tx1 buf cap).len = (getsU1 B rx2 tx2 buf cap).len ∧
    (getsU1 B rx1 tx1 buf cap).echo = (getsU1 B rx2 tx2 buf cap).echo ∧
    (getsU1 B rx1 tx1 buf cap).stores = (getsU1 B rx2 tx2 buf cap).stores := by
  have h := getsU1Loop_sameLine B rx1
    { buf := buf, s := 0, len := cap, tx := tx1, echo := [], stores := [], gets := 0 } rx2
    { buf := buf, s := 0, len := cap, tx := tx2, echo := [], stores := [], gets := 0 } hrx
    ⟨rfl, rfl, rfl, rfl, rfl, rfl⟩
  obtain ⟨hb, hs, hl, he, hst, hg⟩ := h
  simp only [getsU1, LineState.store]
  exact ⟨hg, by rw [hb, hs], hs, hl, he, by rw [hst, hs]⟩

/-- C19 with BACKSPACE = 8, capacity 5 and input "ab\r": the run on a
transmitter that is always full, where every echo times out, reads the same
line as the run on a transmitter that is never full. -/
theorem getsU1_line_independent_of_echo_witness :
    (getsU1 8 [ready 0x61, ready 0x62, ready 0x0D] idle (fun _ => 0xFF) 5).gets
      = (getsU1 8 [ready 0x61, ready 0x62, ready 0x0D]
          { UTXBF := fun _ => true, polls := 0, TXREG := [] } (fun _ => 0xFF) 5).gets ∧
    (getsU1 8 [ready 0x61, ready 0x62, ready 0x0D] idle (fun _ => 0xFF) 5).buf
      = (getsU1 8 [ready 0x61, ready 0x62, ready 0x0D]
          { UTXBF := fun _ => true, polls := 0, TXREG := [] } (fun _ => 0xFF) 5).buf ∧
    (getsU1 8 [ready 0x61, ready 0x62, ready 0x0D] idle (fun _ => 0xFF) 5).s
      = (getsU1 8 [ready 0x61, ready 0x62, ready 0x0D]
          { UTXBF := fun _ => true, polls := 0, TXREG := [] } (fun _ => 0xFF) 5).s := by
  have h := getsU1_line_independent_of_echo 8 5 [ready 0x61, ready 0x62, ready 0x0D]
    [ready 0x61, ready 0x62, ready 0x0D] idle
    { UTXBF := fun _ => true, polls := 0, TXREG := [] } (fun _ => 0xFF) rfl
  exact ⟨h.1, h.2.1, h.2.2.1⟩

/-- C14 as written fails on the Sentinel Byte.  With BACKSPACE = 8 and
capacity 5, when the first `getU1` call returns 0x18 the cursor is moved past
it and `len` is left alone: `getsU1` returns with the cursor at 1 and `len`
still 5, and 1 + 5 is not the capacity 5. -/
theorem getsU1_cursor_len_off_after_sentinel :
    (getsU1 8 [ready 0x18] idle (fun _ => 0xFF) 5).s = 1 ∧
    (getsU1 8 [ready 0x18] idle (fun _ => 0xFF) 5).len = 5 ∧
    ((getsU1 8 [ready 0x18] idle (fun _ => 0xFF) 5).s : Int)
      + (getsU1 8 [ready 0x18] idle (fun _ => 0xFF) 5).len ≠ 5 := by
  have hrun := getsU1Loop_sentinel 8 (ready 0x18) []
    { buf := fun _ => 0xFF, s := 0, len := 5, tx := idle, echo := [], stores := [], gets := 0 }
    (rxByte_ready 0x18) (Or.inl (by decide))
  refine ⟨?_, ?_, ?_⟩ <;> (rw [getsU1, hrun]; simp [LineState.store])

/-- C14, amended.  Cursor and `len` in `getsU1`, for every BACKSPACE code,
capacity and received stream.  A pass of the loop that reaches the loop test
leaves cursor + `len` as it was: `len` goes down by one when the cursor goes
up by one (a byte stored) and up by one when the cursor goes down by one (a
byte erased), so the sum is the capacity at every loop test.  On return the
sum is the capacity, unless the line ended on the Sentinel Byte 0x18
(`buffer[cursor-1]` is 0x18): then the cursor went past the 0x18 with no
decrement and the sum is the capacity plus one. -/
theorem getsU1_cursor_len_consistent (B : Nat) (cap : Int) (rx : List RxPort)
    (tx : TxPort) (buf : Nat → Nat) :
    (∀ (c : Nat) (st : LineState), (getsU1Body B c st).1 = Flow.test →
      ((getsU1Body B c st).2.s : Int) + (getsU1Body B c st).2.len = (st.s : Int) + st.len) ∧
    (¬ (0 < (getsU1 B rx tx buf cap).s ∧
        (getsU1 B rx tx buf cap).buf ((getsU1 B rx tx buf cap).s - 1) = 0x18) →
      ((getsU1 B rx tx buf cap).s : Int) + (getsU1 B rx tx buf cap).len = cap) ∧
    ((0 < (getsU1 B rx tx buf cap).s ∧
        (getsU1 B rx tx buf cap).buf ((getsU1 B rx tx buf cap).s - 1) = 0x18) →
      ((getsU1 B rx tx buf cap).s : Int) + (getsU1 B rx tx buf cap).len = cap + 1) := by
  refine ⟨fun c st h => getsU1Body_sum B c st h, ?_, ?_⟩
  · intro hno
    rcases (getsU1_returned B cap rx tx buf).2 with ⟨hs, _⟩ | ⟨_, hpos, hlast⟩
    · exact hs
    · exact absurd ⟨hpos, hlast⟩ hno
  · intro hyes
    rcases (getsU1_returned B cap rx tx buf).2 with ⟨_, hnone⟩ | ⟨hs, _, _⟩
    · exact absurd hyes.2 (hnone _ (by omega))
    · exact hs

/-- C14, amended, with BACKSPACE = 8 and capacity 5: after "ab\r" the line
does not end on 0x18 and cursor + `len` is 5; after "a" and a 0x18 it does and
the sum is 6. -/
theorem getsU1_cursor_len_consistent_witness :
    ((getsU1 8 [ready 0x61, ready 0x62, ready 0x0D] idle (fun _ => 0xFF) 5).s : Int)
      + (getsU1 8 [ready 0x61, ready 0x62, ready 0x0D] idle (fun _ => 0xFF) 5).len = 5 ∧
    ((getsU1 8 [ready 0x61, ready 0x18] idle (fun _ => 0xFF) 5).s : Int)
      + (getsU1 8 [ready 0x61, ready 0x18] idle (fun _ => 0xFF) 5).len = 5 + 1 := by
  have hord : ∀ e, e ∈ [ready 0x61] →
      rxByte e ≠ 8 ∧ rxByte e ≠ 0x0A ∧ rxByte e ≠ 0x0D ∧ rxByte e ≠ 0x18 := by
    intro e he
    rw [List.mem_singleton.mp he]
    simp [rxByte_ready]
  have hord2 : ∀ e, e ∈ [ready 0x61, ready 0x62] →
      rxByte e ≠ 8 ∧ rxByte e ≠ 0x0A ∧ rxByte e ≠ 0x0D ∧ rxByte e ≠ 0x18 := by
    intro e he
    simp only [List.mem_cons, List.mem_singleton, List.not_mem_nil, or_false] at he
    rcases he with h | h <;> subst h <;> simp [rxByte_ready]
  have hrun1 := getsU1Loop_ordinary_prefix 8 [ready 0x61, ready 0x62] [ready 0x0D]
    { buf := fun _ => 0xFF, s := 0, len := 5, tx := idle, echo := [], stores := [], gets := 0 }
    hord2 (by decide)
  rw [getsU1Loop_carriage_return 8 _ _ _ (rxByte_ready 0x0D) (Or.inl (by decide))] at hrun1
  have hrun2 := getsU1Loop_ordinary_prefix 8 [ready 0x61] [ready 0x18]
    { buf := fun _ => 0xFF, s := 0, len := 5, tx := idle, echo := [], stores := [], gets := 0 }
    hord (by decide)
  rw [getsU1Loop_sentinel 8 _ _ _ (rxByte_ready 0x18) (Or.inl (by decide))] at hrun2
  have hcall1 : getsU1 8 [ready 0x61, ready 0x62, ready 0x0D] idle (fun _ => 0xFF) 5
      = (getsU1Loop 8 ([ready 0x61, ready 0x62] ++ [ready 0x0D])
          { buf := fun _ => 0xFF, s := 0, len := 5, tx := idle, echo := [], stores := [],
            gets := 0 }).store 0 := rfl
  have hcall2 : getsU1 8 [ready 0x61, ready 0x18] idle (fun _ => 0xFF) 5
      = (getsU1Loop 8 ([ready 0x61] ++ [ready 0x18])
          { buf := fun _ => 0xFF, s := 0, len := 5, tx := idle, echo := [], stores := [],
            gets := 0 }).store 0 := rfl
  constructor
  · apply (getsU1_cursor_len_consistent 8 5 _ idle (fun _ => 0xFF)).2.1
    rw [hcall1, hrun1]
    simp [rxByte_ready, LineState.keep, LineState.store, LineState.put]
  · apply (getsU1_cursor_len_consistent 8 5 _ idle (fun _ => 0xFF)).2.2
    rw [hcall2, hrun2]
    simp [rxByte_ready, LineState.keep, LineState.store, LineState.put]

/-- C17. Shape of the line `getsU1` returns, for every capacity of 2 or more,
every BACKSPACE code and every received stream: the bytes below the final
cursor hold no carriage return and no line feed, BACKSPACE at index 0 at most
and 0x18 as the last of them (index cursor - 1) at most; and the cursor is
at most capacity - 1. -/
theorem getsU1_returned_line_shape (B : Nat) (cap : Int) (hcap : 2 ≤ cap)
    (rx : List RxPort) (tx : TxPort) (buf : Nat → Nat) :
    (∀ i, i < (getsU1 B rx tx buf cap).s →
      (getsU1 B rx tx buf cap).buf i ≠ 0x0D ∧
      (getsU1 B rx tx buf cap).buf i ≠ 0x0A ∧
      ((getsU1 B rx tx buf cap).buf i = B → i = 0) ∧
      ((getsU1 B rx tx buf cap).buf i = 0x18 → i + 1 = (getsU1 B rx tx buf cap).s)) ∧
    ((getsU1 B rx tx buf cap).s : Int) ≤ cap - 1 := by
  refine ⟨?_, (getsU1_in_bounds B cap hcap rx tx buf).2.1⟩
  intro i hi
  have h := (getsU1_returned B cap rx tx buf).1 i hi
  exact ⟨h.1, h.2.1, h.2.2.2, h.2.2.1⟩

/-- C17 with BACKSPACE = 8, capacity 5 and the bytes BACKSPACE, 'a', line
feed, 0x18: the shape holds of the returned line, whose cursor is at most
4. -/
theorem getsU1_returned_line_shape_witness :
    (∀ i, i < (getsU1 8 [ready 8, ready 0x61, ready 0x0A, ready 0x18] idle
        (fun _ => 0xFF) 5).s →
      (getsU1 8 [ready 8, ready 0x61, ready 0x0A, ready 0x18] idle (fun _ => 0xFF) 5).buf i
        ≠ 0x0D ∧
      (getsU1 8 [ready 8, ready 0x61, ready 0x0A, ready 0x18] idle (fun _ => 0xFF) 5).buf i
        ≠ 0x0A ∧
      ((getsU1 8 [ready 8, ready 0x61, ready 0x0A, ready 0x18] idle (fun _ => 0xFF) 5).buf i
        = 8 → i = 0) ∧
      ((getsU1 8 [ready 8, ready 0x61, ready 0x0A, ready 0x18] idle (fun _ => 0xFF) 5).buf i
        = 0x18 →
        i + 1 = (getsU1 8 [ready 8, ready 0x61, ready 0x0A, ready 0x18] idle
          (fun _ => 0xFF) 5).s)) ∧
    ((getsU1 8 [ready 8, ready 0x61, ready 0x0A, ready 0x18] idle (fun _ => 0xFF) 5).s : Int)
      ≤ 5 - 1 :=
  getsU1_returned_line_shape 8 5 (by decide) [ready 8, ready 0x61, ready 0x0A, ready 0x18]
    idle (fun _ => 0xFF)

/-- C11. Line feeds are discarded by `getsU1`.  At every state `st` of the
loop with `len > 1`, a pass that reads a line feed ends at the loop test with
the cursor, `len` and the bytes below the cursor as they were, and the loop
goes on with the rest of the stream.  So for every capacity of 2 or more and
every received stream, `getsU1` returns the same buffer contents, the same
cursor and the same `len` as on the stream with all line feeds removed, and
no byte below the final cursor is a line feed.  BACKSPACE is a code other
than the line feed. -/
theorem getsU1_discards_line_feeds (B : Nat) (hB : B ≠ 0x0A) (cap : Int) (hcap : 2 ≤ cap)
    (rx : List RxPort) (tx : TxPort) (buf : Nat → Nat) :
    (∀ (st : LineState) (e : RxPort) (rest : List RxPort), st.len > 1 →
      rxByte e = 0x0A →
      (getsU1Pass B (e :: rest) st).1 = Flow.test ∧
      (getsU1Pass B (e :: rest) st).2.s = st.s ∧
      (getsU1Pass B (e :: rest) st).2.len = st.len ∧
      (∀ i, i < st.s → (getsU1Pass B (e :: rest) st).2.buf i = st.buf i) ∧
      getsU1Loop B (e :: rest) st = getsU1Loop B rest (getsU1Pass B (e :: rest) st).2) ∧
    (getsU1 B rx tx buf cap).buf
      = (getsU1 B (rx.filter (fun e => decide (rxByte e ≠ 0x0A))) tx buf cap).buf ∧
    (getsU1 B rx tx buf cap).s
      = (getsU1 B (rx.filter (fun e => decide (rxByte e ≠ 0x0A))) tx buf cap).s ∧
    (getsU1 B rx tx buf cap).len
      = (getsU1 B (rx.filter (fun e => decide (rxByte e ≠ 0x0A))) tx buf cap).len ∧
    (∀ i, i < (getsU1 B rx tx buf cap).s → (getsU1 B rx tx buf cap).buf i ≠ 0x0A) := by
  refine ⟨?_, ?_⟩
  · intro st e rest hlen he
    have hp := getsU1Pass_line_feed B hB e rest st he
    have hloop := getsU1Loop_again B (e :: rest) st (by rw [hp]) (by rw [hp]; exact hlen)
    rw [hp] at hloop ⊢
    refine ⟨rfl, rfl, rfl, ?_, hloop⟩
    intro i hi
    simp only [LineState.store, LineState.put]
    exact update_below _ _ _ i hi
  · have h := getsU1Loop_drop_line_feeds B hB rx
      { buf := buf, s := 0, len := cap, tx := tx, echo := [], stores := [], gets := 0 }
      { buf := buf, s := 0, len := cap, tx := tx, echo := [], stores := [], gets := 0 }
      ⟨rfl, rfl, fun _ _ => rfl⟩ (by simp only; omega)
    obtain ⟨hs, hl, hb⟩ := h
    refine ⟨?_, hs, hl, ?_⟩
    · simp only [getsU1, LineState.store]
      rw [hb, hs]
    · intro i hi
      exact ((getsU1_returned B cap rx tx buf).1 i hi).2.1

/-- C11 with BACKSPACE = 8, capacity 5 and input 'a', line feed, 'b',
carriage return: the line feed read at the start state leaves cursor and `len`
alone, and the call returns the buffer, cursor and `len` of the call on 'a',
'b', carriage return. -/
theorem getsU1_discards_line_feeds_witness :
    ((getsU1Pass 8 [ready 0x0A, ready 0x62]
        { buf := fun _ => 0xFF, s := 0, len := 5, tx := idle, echo := [], stores := [],
          gets := 0 }).1 = Flow.test ∧
      (getsU1Pass 8 [ready 0x0A, ready 0x62]
        { buf := fun _ => 0xFF, s := 0, len := 5, tx := idle, echo := [], stores := [],
          gets := 0 }).2.s = 0 ∧
      (getsU1Pass 8 [ready 0x0A, ready 0x62]
        { buf := fun _ => 0xFF, s := 0, len := 5, tx := idle, echo := [], stores := [],
          gets := 0 }).2.len = 5) ∧
    (getsU1 8 [ready 0x61, ready 0x0A, ready 0x62, ready 0x0D] idle (fun _ => 0xFF) 5).buf
      = (getsU1 8 [ready 0x61, ready 0x62, ready 0x0D] idle (fun _ => 0xFF) 5).buf ∧
    (getsU1 8 [ready 0x61, ready 0x0A, ready 0x62, ready 0x0D] idle (fun _ => 0xFF) 5).s
      = (getsU1 8 [ready 0x61, ready 0x62, ready 0x0D] idle (fun _ => 0xFF) 5).s := by
  have h := getsU1_discards_line_feeds 8 (by decide) 5 (by decide)
    [ready 0x61, ready 0x0A, ready 0x62, ready 0x0D] idle (fun _ => 0xFF)
  have hf : [ready 0x61, ready 0x0A, ready 0x62, ready 0x0D].filter
      (fun e => decide (rxByte e ≠ 0x0A)) = [ready 0x61, ready 0x62, ready 0x0D] := by
    simp [List.filter, rxByte_ready]
  rw [hf] at h
  have h1 := h.1
    { buf := fun _ => 0xFF, s := 0, len := 5, tx := idle, echo := [], stores := [], gets := 0 }
    (ready 0x0A) [ready 0x62] (by decide) (rxByte_ready 0x0A)
  exact ⟨⟨h1.1, h1.2.1, h1.2.2.1⟩, h.2.1, h.2.2.1⟩

/-- C13. Echo trace of `getsU1`.  In every pass of the loop the arguments of
the `putU1` calls are: nothing when the byte read is 0x18; BACKSPACE, space,
BACKSPACE when it is BACKSPACE and the cursor is past the buffer start; the
byte itself otherwise.  So for every capacity and received stream the
sequence of bytes `getsU1` passes to `putU1` is the concatenation of these
echoes over the bytes it reads, in order (`getsU1Reads`: as many as there are
`getU1` calls, the received bytes from the first on, then the 0x18 of a
timeout).  On a transmitter that is never full these are the bytes written
to the transmit register.  BACKSPACE is a code other than 0x18. -/
theorem getsU1_echo_trace (B : Nat) (h18 : B ≠ 0x18) (cap : Int) (rx : List RxPort)
    (tx : TxPort) (buf : Nat → Nat) :
    (∀ (c : Nat) (st : LineState),
      (getsU1Body B c st).2.echo
        = st.echo ++ (if c = 0x18 then [] else if c = B ∧ st.s > 0 then [B, 0x20, B]
            else [c])) ∧
    (getsU1 B rx tx buf cap).echo
      = ((getsU1Reads B rx
          { buf := buf, s := 0, len := cap, tx := tx, echo := [], stores := [],
            gets := 0 }).map (echoOf B)).flatten ∧
    (getsU1Reads B rx
      { buf := buf, s := 0, len := cap, tx := tx, echo := [], stores := [],
        gets := 0 }).length = (getsU1 B rx tx buf cap).gets ∧
    (getsU1Reads B rx
      { buf := buf, s := 0, len := cap, tx := tx, echo := [], stores := [],
        gets := 0 }).map Prod.fst <+: rx.map rxByte ++ [0x18] ∧
    ((∀ k, tx.UTXBF k = false) →
      (getsU1 B rx tx buf cap).tx.TXREG = tx.TXREG ++ (getsU1 B rx tx buf cap).echo) := by
  refine ⟨fun c st => getsU1Body_echo B c h18 st, ?_, ?_, getsU1Reads_bytes B h18 rx _, ?_⟩
  · have h := getsU1Loop_echo B h18 rx
      { buf := buf, s := 0, len := cap, tx := tx, echo := [], stores := [], gets := 0 }
    simp only [List.nil_append] at h
    exact h
  · have h := getsU1Reads_length B rx
      { buf := buf, s := 0, len := cap, tx := tx, echo := [], stores := [], gets := 0 }
    simp only [Nat.zero_add] at h
    exact h
  · intro hready
    have h := getsU1Loop_wired B tx.TXREG rx
      { buf := buf, s := 0, len := cap, tx := tx, echo := [], stores := [], gets := 0 }
      ⟨hready, by simp⟩
    exact h.2

/-- C13 with BACKSPACE = 8, capacity 5, a transmitter that is never full and
input 'a', BACKSPACE, BACKSPACE, carriage return: the echo is made of the
echoes of the bytes read, and it is what the transmit register was written;
the second pass, BACKSPACE with the cursor at 1, echoes BACKSPACE, space,
BACKSPACE. -/
theorem getsU1_echo_trace_witness :
    (getsU1 8 [ready 0x61, ready 8, ready 8, ready 0x0D] idle (fun _ => 0xFF) 5).echo
      = ((getsU1Reads 8 [ready 0x61, ready 8, ready 8, ready 0x0D]
          { buf := fun _ => 0xFF, s := 0, len := 5, tx := idle, echo := [], stores := [],
            gets := 0 }).map (echoOf 8)).flatten ∧
    (getsU1 8 [ready 0x61, ready 8, ready 8, ready 0x0D] idle (fun _ => 0xFF) 5).tx.TXREG
      = idle.TXREG
        ++ (getsU1 8 [ready 0x61, ready 8, ready 8, ready 0x0D] idle (fun _ => 0xFF) 5).echo ∧
    (getsU1Body 8 8
      { buf := fun _ => 0xFF, s := 1, len := 4, tx := idle, echo := [0x61], stores := [0],
        gets := 2 }).2.echo = [0x61] ++ [8, 0x20, 8] := by
  have h := getsU1_echo_trace 8 (by decide) 5 [ready 0x61, ready 8, ready 8, ready 0x0D] idle
    (fun _ => 0xFF)
  have h8 := h.1 8
    { buf := fun _ => 0xFF, s := 1, len := 4, tx := idle, echo := [0x61], stores := [0],
      gets := 2 }
  refine ⟨h.2.1, h.2.2.2.2 (fun _ => rfl), ?_⟩
  rw [h8]
  simp

end UART
